import Mathlib

/-!
Verification of the numeric-kernel engine (handle registry, dispatch,
partitioned parallel kernels) against its specification.

The embedding models `f64` arithmetic by exact rational arithmetic (`ℚ`)
for the kernels whose claims are about exact control flow and algebraic
structure, and works generically over a field for the FFT.  Buffers
(`&[f64]` / `Vec<f64>`) are modelled as `List ℚ`; out-of-range reads,
which the source code never performs, default to `0`.
-/

namespace SciMath

/-- Read element `i` of a buffer; `0` when out of range (the source code
only reads in-range indices, so the default is never observable). -/
def bufGet (l : List ℚ) (i : ℕ) : ℚ := l.getD i 0

/-! ## Richardson–Lucy deconvolution (src/analysis/mod.rs, `deconvolve_rl`)

The source computes `n = data.len()`, `kn = kernel.len()`, `kh = kn / 2`,
initialises the working estimate `current` to all ones, flips the kernel,
and then runs `iterations` rounds of three passes (convolution,
guarded ratio, correlation-and-multiply).  The sequential branch
(`n < 2048`) and the parallel branch are embedded separately below,
each following its own loop structure in the source. -/

/-- Lower clip of the kernel window at index `i`
(source: `if i >= kh { 0 } else { kh - i }`). -/
def clipLo (kh i : ℕ) : ℕ := if kh ≤ i then 0 else kh - i

/-- Upper clip of the kernel window at index `i`
(source: `if i + kh < n { kn } else { n - i + kh }`). -/
def clipHi (n kn kh i : ℕ) : ℕ := if i + kh < n then kn else n - i + kh

/-- Convolution pass of the sequential branch: for each `i < n`,
`sum over j in clipLo..clipHi of cur[i + j - kh] * ker[j]`. -/
def convPassSeq (n kn kh : ℕ) (cur ker : List ℚ) : List ℚ :=
  (List.range n).map fun i =>
    ∑ j ∈ Finset.Ico (clipLo kh i) (clipHi n kn kh i), bufGet cur (i + j - kh) * bufGet ker j

/-- Guarded ratio pass of the sequential branch: `rel[i] = d[i] / est[i]`
when `est[i] > 1e-12`, else `0`. -/
def relPassSeq (n : ℕ) (d est : List ℚ) : List ℚ :=
  (List.range n).map fun i =>
    if bufGet est i > 1 / 10 ^ 12 then bufGet d i / bufGet est i else 0

/-- Correlation pass of the sequential branch:
`temp[i] = cur[i] * (sum over j of rel[i + j - kh] * kf[j])`. -/
def corrPassSeq (n kn kh : ℕ) (rel cur kf : List ℚ) : List ℚ :=
  (List.range n).map fun i =>
    bufGet cur i *
      ∑ j ∈ Finset.Ico (clipLo kh i) (clipHi n kn kh i), bufGet rel (i + j - kh) * bufGet kf j

/-- One sequential iteration: the three passes, then `current := temp`. -/
def rlStepSeq (n kn kh : ℕ) (d ker kf cur : List ℚ) : List ℚ :=
  corrPassSeq n kn kh (relPassSeq n d (convPassSeq n kn kh cur ker)) cur kf

/-- The estimate after `m` sequential iterations (starts at all ones). -/
def rlIterSeq (n kn kh : ℕ) (d ker kf : List ℚ) : ℕ → List ℚ
  | 0 => List.replicate n 1
  | m + 1 => rlStepSeq n kn kh d ker kf (rlIterSeq n kn kh d ker kf m)

/-- The sequential branch of `deconvolve_rl` (taken when `n < 2048`). -/
def deconvolveSeq (d ker : List ℚ) (iterations : ℕ) : List ℚ :=
  rlIterSeq d.length ker.length (ker.length / 2) d ker ker.reverse iterations

/-- Convolution pass of the parallel branch: the rayon `for_each` over
`0..n` writes `est[i]` from the same clipped window formula; each task
writes only its own index, so the loop denotes the same pointwise map. -/
def convPassPar (n kn kh : ℕ) (cur ker : List ℚ) : List ℚ :=
  (List.range n).map fun i =>
    ∑ j ∈ Finset.Ico (clipLo kh i) (clipHi n kn kh i), bufGet cur (i + j - kh) * bufGet ker j

/-- Guarded ratio pass of the parallel branch. -/
def relPassPar (n : ℕ) (d est : List ℚ) : List ℚ :=
  (List.range n).map fun i =>
    if bufGet est i > 1 / 10 ^ 12 then bufGet d i / bufGet est i else 0

/-- Correlation pass of the parallel branch. -/
def corrPassPar (n kn kh : ℕ) (rel cur kf : List ℚ) : List ℚ :=
  (List.range n).map fun i =>
    bufGet cur i *
      ∑ j ∈ Finset.Ico (clipLo kh i) (clipHi n kn kh i), bufGet rel (i + j - kh) * bufGet kf j

/-- One parallel iteration (the three rayon passes separated by joins). -/
def rlStepPar (n kn kh : ℕ) (d ker kf cur : List ℚ) : List ℚ :=
  corrPassPar n kn kh (relPassPar n d (convPassPar n kn kh cur ker)) cur kf

/-- The estimate after `m` parallel iterations. -/
def rlIterPar (n kn kh : ℕ) (d ker kf : List ℚ) : ℕ → List ℚ
  | 0 => List.replicate n 1
  | m + 1 => rlStepPar n kn kh d ker kf (rlIterPar n kn kh d ker kf m)

/-- The parallel branch of `deconvolve_rl` (taken when `n ≥ 2048`). -/
def deconvolvePar (d ker : List ℚ) (iterations : ℕ) : List ℚ :=
  rlIterPar d.length ker.length (ker.length / 2) d ker ker.reverse iterations

/-- `deconvolve_rl` with its adaptive threshold: the result written into
`out` (the source ends both branches with `out.copy_from_slice(&current)`). -/
def deconvolve_rl (d ker : List ℚ) (iterations : ℕ) : List ℚ :=
  if d.length < 2048 then deconvolveSeq d ker iterations else deconvolvePar d ker iterations

lemma rlIterSeq_eq_par (n kn kh : ℕ) (d ker kf : List ℚ) (m : ℕ) :
    rlIterSeq n kn kh d ker kf m = rlIterPar n kn kh d ker kf m := by
  induction m with
  | zero => rfl
  | succ m ih =>
      simp only [rlIterSeq, rlIterPar, ih]
      rfl

lemma deconvolveSeq_eq_par (d ker : List ℚ) (iterations : ℕ) :
    deconvolveSeq d ker iterations = deconvolvePar d ker iterations :=
  rlIterSeq_eq_par _ _ _ _ _ _ _

/-- C3.  Sequential/parallel equivalence for Richardson–Lucy
deconvolution: for every data buffer, kernel buffer and iteration count,
the sequential branch of `deconvolve_rl` (taken when `n < 2048`) and the
parallel branch (taken otherwise) compute exactly the same output,
element for element; consequently `deconvolve_rl` itself always equals
both. -/
theorem claim3_deconvolve_seq_par_equiv (d ker : List ℚ) (iterations : ℕ) :
    deconvolveSeq d ker iterations = deconvolvePar d ker iterations ∧
    deconvolve_rl d ker iterations = deconvolveSeq d ker iterations := by
  refine ⟨deconvolveSeq_eq_par d ker iterations, ?_⟩
  unfold deconvolve_rl
  by_cases h : d.length < 2048
  · simp [h]
  · simp [h, deconvolveSeq_eq_par]

/-- C9.  With `iterations = 0`, `deconvolve_rl` writes the initial
all-ones estimate to the output: the result is `replicate n 1` for every
data and kernel buffer (only the data length matters). -/
theorem claim9_deconvolve_zero_iterations_all_ones (d ker : List ℚ) :
    deconvolve_rl d ker 0 = List.replicate d.length 1 := by
  unfold deconvolve_rl
  by_cases h : d.length < 2048 <;> simp [h, deconvolveSeq, deconvolvePar, rlIterSeq, rlIterPar]

/-! ## The ratio guard and the spec-side expectation (claim C6) -/

/-- Read a buffer at a signed index, zero outside `[0, length)`.  Used to
state the spec-side convolution without the source's window clipping. -/
def zread (l : List ℚ) (z : ℤ) : ℚ :=
  if 0 ≤ z ∧ z < l.length then bufGet l z.toNat else 0

/-- The expectation value at index `i` as the spec describes it: the
convolution of the current estimate with the kernel over the full kernel
window, out-of-range samples read as zero.  This is the spec-side
counterpart of the clipped-window sum computed by `convPassSeq`. -/
def specExpectation (kn kh : ℕ) (cur ker : List ℚ) (i : ℕ) : ℚ :=
  ∑ j ∈ Finset.range kn, zread cur ((i : ℤ) + j - kh) * bufGet ker j

lemma bufGet_map_range (f : ℕ → ℚ) (n i : ℕ) (hi : i < n) :
    bufGet ((List.range n).map f) i = f i := by
  simp [bufGet, List.getD_eq_getElem?_getD, List.getElem?_map, List.getElem?_range, hi]

lemma rlIterSeq_length (n kn kh : ℕ) (d ker kf : List ℚ) (m : ℕ) :
    (rlIterSeq n kn kh d ker kf m).length = n := by
  cases m <;> simp [rlIterSeq, rlStepSeq, corrPassSeq]

/-- The clipped-window convolution of the source equals the spec-side
zero-extended convolution, provided `kh` is the half width (`2*kh ≤ kn ≤
2*kh+1`, true for `kh = kn / 2`) and the estimate has length `n`. -/
lemma convPassSeq_eq_specExpectation
    (n kn kh : ℕ) (cur ker : List ℚ)
    (hc : cur.length = n) (hk2 : 2 * kh ≤ kn) (hk1 : kn ≤ 2 * kh + 1)
    (i : ℕ) (hi : i < n) :
    bufGet (convPassSeq n kn kh cur ker) i = specExpectation kn kh cur ker i := by
  rw [convPassSeq, bufGet_map_range _ _ _ hi, specExpectation]
  have hstep : ∀ j ∈ Finset.Ico (clipLo kh i) (clipHi n kn kh i),
      bufGet cur (i + j - kh) * bufGet ker j =
        zread cur ((i : ℤ) + j - kh) * bufGet ker j := by
    intro j hj
    rcases Finset.mem_Ico.mp hj with ⟨h1, h2⟩
    have hge : kh ≤ i + j := by
      unfold clipLo at h1; split at h1 <;> omega
    have hlt : i + j - kh < n := by
      unfold clipHi at h2; split at h2 <;> omega
    have hcond : 0 ≤ (i : ℤ) + j - kh ∧ (i : ℤ) + j - kh < (cur.length : ℤ) := by
      constructor <;> omega
    rw [zread, if_pos hcond]
    congr 2
    omega
  rw [Finset.sum_congr rfl hstep]
  have hsub : Finset.Ico (clipLo kh i) (clipHi n kn kh i) ⊆ Finset.range kn := by
    intro j hj
    rcases Finset.mem_Ico.mp hj with ⟨h1, h2⟩
    rw [Finset.mem_range]
    unfold clipHi at h2; split at h2 <;> omega
  refine Finset.sum_subset hsub ?_
  intro j hj hnot
  rw [Finset.mem_range] at hj
  rw [Finset.mem_Ico, not_and_or, not_le, not_lt] at hnot
  have hz : ¬ (0 ≤ (i : ℤ) + j - kh ∧ (i : ℤ) + j - kh < (cur.length : ℤ)) := by
    unfold clipLo clipHi at hnot
    rcases hnot with h | h <;> (split at h <;> omega)
  rw [zread, if_neg hz, zero_mul]

/-- The working estimate of `deconvolve_rl` after `m` iterations of the
sequential branch. -/
def rlEstimateSeq (d ker : List ℚ) (m : ℕ) : List ℚ :=
  rlIterSeq d.length ker.length (ker.length / 2) d ker ker.reverse m

/-- The working estimate after `m` iterations of the parallel branch. -/
def rlEstimatePar (d ker : List ℚ) (m : ℕ) : List ℚ :=
  rlIterPar d.length ker.length (ker.length / 2) d ker ker.reverse m

/-- The `rel` buffer computed during iteration `m+1` of the sequential
branch of `deconvolve_rl`. -/
def rlRelTraceSeq (d ker : List ℚ) (m : ℕ) : List ℚ :=
  relPassSeq d.length d
    (convPassSeq d.length ker.length (ker.length / 2) (rlEstimateSeq d ker m) ker)

/-- The `rel` buffer computed during iteration `m+1` of the parallel
branch of `deconvolve_rl`. -/
def rlRelTracePar (d ker : List ℚ) (m : ℕ) : List ℚ :=
  relPassPar d.length d
    (convPassPar d.length ker.length (ker.length / 2) (rlEstimatePar d ker m) ker)

/-- Claim C6 as stated: the ratio buffer is zero exactly when the
expectation is strictly below `1e-12`, and `observed / expectation`
otherwise. -/
def claimSixStated : Prop :=
  ∀ (d ker : List ℚ) (m i : ℕ), i < d.length →
    (bufGet (rlRelTraceSeq d ker m) i = 0 ↔
      specExpectation ker.length (ker.length / 2) (rlEstimateSeq d ker m) ker i
        < 1 / 10 ^ 12) ∧
    (¬ specExpectation ker.length (ker.length / 2) (rlEstimateSeq d ker m) ker i
        < 1 / 10 ^ 12 →
      bufGet (rlRelTraceSeq d ker m) i =
        bufGet d i /
          specExpectation ker.length (ker.length / 2) (rlEstimateSeq d ker m) ker i)

/-- C6 counterexample: with observed `[5]` and kernel `[1e-12]`, the
expectation is exactly `1e-12`; the code substitutes `0` (its guard is
`ev > 1e-12`), while the claim (`0` exactly when below `1e-12`) demands
`5e12`. -/
theorem claim6_counterexample : ¬ claimSixStated := by
  intro h
  have h5 := h [5] [1 / 10 ^ 12] 0 0 (by decide)
  have hrel : bufGet (rlRelTraceSeq [5] [1 / 10 ^ 12] 0) 0 = 0 := by
    simp [rlRelTraceSeq, rlEstimateSeq, rlIterSeq, relPassSeq, convPassSeq, clipLo, clipHi,
      bufGet, ← Finset.range_eq_Ico, Finset.sum_range_one]
  have hexp : specExpectation ([(1 / 10 ^ 12 : ℚ)]).length (([(1 / 10 ^ 12 : ℚ)]).length / 2)
      (rlEstimateSeq [5] [1 / 10 ^ 12] 0) [1 / 10 ^ 12] 0 = 1 / 10 ^ 12 := by
    simp [specExpectation, zread, rlEstimateSeq, rlIterSeq, bufGet, Finset.sum_range_one]
  rcases h5 with ⟨hiff, _⟩
  rw [hexp] at hiff
  exact absurd (hiff.mp hrel) (lt_irrefl _)

/-- C6 (amended).  In every iteration of `deconvolve_rl` and at every
index `i`, the ratio buffer satisfies `rel[i] = observed[i] /
expectation[i]` when the expectation exceeds `1e-12`, and `rel[i] = 0`
when the expectation is at most `1e-12` (the code's guard is `ev >
1e-12`, so the boundary value `1e-12` itself is substituted by zero);
the parallel branch computes the same ratio buffer as the sequential
branch. -/
theorem claim6_rl_ratio_guard_amended (d ker : List ℚ) (m i : ℕ) (hi : i < d.length) :
    (bufGet (rlRelTraceSeq d ker m) i =
      if 1 / 10 ^ 12 <
          specExpectation ker.length (ker.length / 2) (rlEstimateSeq d ker m) ker i
      then bufGet d i /
          specExpectation ker.length (ker.length / 2) (rlEstimateSeq d ker m) ker i
      else 0) ∧
    rlRelTracePar d ker m = rlRelTraceSeq d ker m := by
  constructor
  · rw [rlRelTraceSeq, relPassSeq, bufGet_map_range _ _ _ hi,
      convPassSeq_eq_specExpectation d.length ker.length (ker.length / 2)
        (rlEstimateSeq d ker m) ker (rlIterSeq_length _ _ _ _ _ _ _)
        (by omega) (by omega) i hi]
  · rw [rlRelTracePar, rlRelTraceSeq, rlEstimatePar, rlEstimateSeq,
      rlIterSeq_eq_par]
    rfl

/-- Witness for C6 at observed `[2]`, kernel `[1]`, iteration `0`,
index `0`. -/
theorem claim6_witness :
    0 < ([(2 : ℚ)]).length ∧
    ((bufGet (rlRelTraceSeq [2] [1] 0) 0 =
      if 1 / 10 ^ 12 <
          specExpectation ([(1 : ℚ)]).length (([(1 : ℚ)]).length / 2)
            (rlEstimateSeq [2] [1] 0) [1] 0
      then bufGet [2] 0 /
          specExpectation ([(1 : ℚ)]).length (([(1 : ℚ)]).length / 2)
            (rlEstimateSeq [2] [1] 0) [1] 0
      else 0) ∧
     rlRelTracePar [2] [1] 0 = rlRelTraceSeq [2] [1] 0) :=
  ⟨by decide, claim6_rl_ratio_guard_amended [2] [1] 0 0 (by decide)⟩

/-! ## Non-negativity of the Richardson–Lucy estimate (claim C7) -/

lemma bufGet_nonneg {l : List ℚ} (hl : ∀ x ∈ l, 0 ≤ x) (i : ℕ) : 0 ≤ bufGet l i := by
  rw [bufGet]
  by_cases h : i < l.length
  · rw [List.getD_eq_getElem l 0 h]
    exact hl _ (List.getElem_mem h)
  · rw [List.getD_eq_default l 0 (le_of_not_lt h)]

lemma mem_map_range_nonneg {n : ℕ} {f : ℕ → ℚ} (hf : ∀ i, i < n → 0 ≤ f i) :
    ∀ x ∈ (List.range n).map f, 0 ≤ x := by
  intro x hx
  rcases List.mem_map.mp hx with ⟨i, hi, rfl⟩
  exact hf i (List.mem_range.mp hi)

lemma rlIterSeq_nonneg (n kn kh : ℕ) (d ker kf : List ℚ)
    (hd : ∀ x ∈ d, 0 ≤ x) (hk : ∀ x ∈ ker, 0 ≤ x) (hkf : ∀ x ∈ kf, 0 ≤ x)
    (m : ℕ) : ∀ x ∈ rlIterSeq n kn kh d ker kf m, 0 ≤ x := by
  induction m with
  | zero =>
      intro x hx
      rw [rlIterSeq] at hx
      rw [List.eq_of_mem_replicate hx]
      exact zero_le_one
  | succ m ih =>
      rw [rlIterSeq, rlStepSeq]
      have hconv : ∀ x ∈ convPassSeq n kn kh (rlIterSeq n kn kh d ker kf m) ker, 0 ≤ x := by
        rw [convPassSeq]
        refine mem_map_range_nonneg fun i _ => Finset.sum_nonneg fun j _ => ?_
        exact mul_nonneg (bufGet_nonneg ih _) (bufGet_nonneg hk _)
      have hrel : ∀ x ∈ relPassSeq n d (convPassSeq n kn kh (rlIterSeq n kn kh d ker kf m) ker),
          0 ≤ x := by
        rw [relPassSeq]
        refine mem_map_range_nonneg fun i _ => ?_
        dsimp only
        split_ifs with hgt
        · exact div_nonneg (bufGet_nonneg hd _) (le_of_lt (lt_trans (by norm_num) hgt))
        · exact le_refl 0
      rw [corrPassSeq]
      refine mem_map_range_nonneg fun i _ => ?_
      exact mul_nonneg (bufGet_nonneg ih _)
        (Finset.sum_nonneg fun j _ => mul_nonneg (bufGet_nonneg hrel _) (bufGet_nonneg hkf _))

/-- C7.  For every non-negative observed signal and non-negative kernel,
the working estimate of `deconvolve_rl` is non-negative after every
iteration, and hence every element of the output buffer is non-negative
for every iteration count. -/
theorem claim7_rl_nonnegativity (d ker : List ℚ)
    (hd : ∀ x ∈ d, 0 ≤ x) (hk : ∀ x ∈ ker, 0 ≤ x) :
    (∀ m, ∀ x ∈ rlEstimateSeq d ker m, 0 ≤ x) ∧
    (∀ iterations, ∀ x ∈ deconvolve_rl d ker iterations, 0 ≤ x) := by
  have hkf : ∀ x ∈ ker.reverse, 0 ≤ x := fun x hx => hk x (List.mem_reverse.mp hx)
  have hmain : ∀ m, ∀ x ∈ rlEstimateSeq d ker m, 0 ≤ x := fun m =>
    rlIterSeq_nonneg d.length ker.length (ker.length / 2) d ker ker.reverse hd hk hkf m
  refine ⟨hmain, ?_⟩
  intro its x hx
  rw [deconvolve_rl] at hx
  by_cases hlen : d.length < 2048
  · rw [if_pos hlen] at hx
    exact hmain its x hx
  · rw [if_neg hlen] at hx
    rw [deconvolvePar, ← rlIterSeq_eq_par] at hx
    exact hmain its x hx

/-- Witness for C7 at observed `[1, 2]`, kernel `[1]`, one iteration. -/
theorem claim7_witness :
    (∀ x ∈ [(1 : ℚ), 2], 0 ≤ x) ∧ (∀ x ∈ [(1 : ℚ)], 0 ≤ x) ∧
    (∀ x ∈ deconvolve_rl [1, 2] [1] 1, 0 ≤ x) :=
  ⟨by norm_num [List.forall_mem_cons], by norm_num [List.forall_mem_cons],
    (claim7_rl_nonnegativity [1, 2] [1] (by norm_num [List.forall_mem_cons])
      (by norm_num [List.forall_mem_cons])).2 1⟩

/-! ## Chunked Butterworth low-pass filter (src/analysis/mod.rs,
`butterworth_lowpass`)

The source derives the five coefficients `b0, b1, b2, a1, a2` from
`cutoff` and `fs` through `tan(pi*cutoff/fs)` (transcendental, outside
the claims, which are about the chunk/warm-up structure at lines
247-283); the embedding therefore takes the coefficients as
parameters. -/

/-- The five coefficients of the second-order section. -/
structure IIRCoeffs where
  b0 : ℚ
  b1 : ℚ
  b2 : ℚ
  a1 : ℚ
  a2 : ℚ

/-- The recurrence state `(x1, x2, y1, y2)`. -/
structure IIRState where
  x1 : ℚ
  x2 : ℚ
  y1 : ℚ
  y2 : ℚ
deriving DecidableEq

/-- The all-zero initial state. -/
def iirZero : IIRState := ⟨0, 0, 0, 0⟩

/-- One step of the recurrence: `y0 = b0*x0 + b1*x1 + b2*x2 - a1*y1 -
a2*y2`, then the shift `x2 = x1; x1 = x0; y2 = y1; y1 = y0`. -/
def iirNext (c : IIRCoeffs) (s : IIRState) (x0 : ℚ) : ℚ × IIRState :=
  let y0 := c.b0 * x0 + c.b1 * s.x1 + c.b2 * s.x2 - c.a1 * s.y1 - c.a2 * s.y2
  (y0, ⟨x0, s.x1, y0, s.y1⟩)

/-- Run the recurrence over a list of samples, discarding the outputs
(the warm-up loops of the source keep only the state). -/
def iirWarm (c : IIRCoeffs) (s : IIRState) (xs : List ℚ) : IIRState :=
  xs.foldl (fun st x => (iirNext c st x).2) s

/-- Run the recurrence over a list of samples, keeping the outputs (the
main chunk loop writes them to `out`). -/
def iirOutputs (c : IIRCoeffs) (s : IIRState) : List ℚ → List ℚ
  | [] => []
  | x :: xs => (iirNext c s x).1 :: iirOutputs c (iirNext c s x).2 xs

/-- The sub-buffer `data[lo..hi]`. -/
def slice {α : Type} (d : List α) (lo hi : ℕ) : List α := (d.take hi).drop lo

/-- The start indices produced by `(0..n).step_by(cs)`: the multiples of
`cs` below `n`, in increasing order.  Both parallel loops of the claims
(`butterworth_lowpass` with `cs = 65536` and the FFT stage loop with
`cs = jump = 2*step`) use this pattern. -/
def stepStarts (n cs : ℕ) : List ℕ :=
  (List.range n).filter fun i => i % cs == 0

/-- One chunk of the parallel branch of `butterworth_lowpass`, exactly as
the source computes it: warm up over `[start-128, start)` when `start >
128`, over `[0, start)` when `0 < start <= 128`, no warm-up at `start =
0`; then filter `[start, min(start+65536, n))` and emit those outputs. -/
def butterworthChunkOut (c : IIRCoeffs) (d : List ℚ) (start : ℕ) : List ℚ :=
  let n := d.length
  let e := min (start + 65536) n
  let s0 :=
    if 128 < start then iirWarm c iirZero (slice d (start - 128) start)
    else if 0 < start then iirWarm c iirZero (slice d 0 start)
    else iirZero
  iirOutputs c s0 (slice d start e)

/-- The full output of the parallel branch: the chunks tile `[0, n)` in
order, so the written buffer is their concatenation. -/
def butterworthParOut (c : IIRCoeffs) (d : List ℚ) : List ℚ :=
  ((stepStarts d.length 65536).map (butterworthChunkOut c d)).flatten

/-- `butterworth_lowpass` with its adaptive threshold (coefficients as
parameters). -/
def butterworth_lowpass (c : IIRCoeffs) (d : List ℚ) : List ℚ :=
  if d.length < 2048 then iirOutputs c iirZero d else butterworthParOut c d

/-- The warm-up state as the spec describes it: run the recurrence from
the all-zero state over exactly the `min(start, 128)` samples
immediately preceding `start`. -/
def specWarmState (c : IIRCoeffs) (d : List ℚ) (start : ℕ) : IIRState :=
  iirWarm c iirZero (slice d (start - min start 128) start)

lemma butterworthChunkOut_eq_spec (c : IIRCoeffs) (d : List ℚ) (start : ℕ) :
    butterworthChunkOut c d start =
      iirOutputs c (specWarmState c d start)
        (slice d start (min (start + 65536) d.length)) := by
  unfold butterworthChunkOut specWarmState
  by_cases h1 : 128 < start
  · rw [if_pos h1]
    have hm : start - min start 128 = start - 128 := by omega
    rw [hm]
  · rw [if_neg h1]
    by_cases h0 : 0 < start
    · rw [if_pos h0]
      have hm : start - min start 128 = 0 := by omega
      rw [hm]
    · rw [if_neg h0]
      have hs : start = 0 := by omega
      subst hs
      rfl

/-- C5.  In the parallel path of `butterworth_lowpass`, every chunk is
filtered starting from the state obtained by running the recurrence from
the all-zero state over the `min(start, 128)` samples immediately
preceding `start`, warm-up outputs discarded; the chunk at `start = 0`
runs from the all-zero state with no warm-up; and the whole parallel
output is the concatenation of the chunks so described. -/
theorem claim5_iir_warmup_semantics (c : IIRCoeffs) (d : List ℚ) :
    (∀ start, butterworthChunkOut c d start =
      iirOutputs c (specWarmState c d start)
        (slice d start (min (start + 65536) d.length))) ∧
    butterworthChunkOut c d 0 =
      iirOutputs c iirZero (slice d 0 (min 65536 d.length)) ∧
    butterworthParOut c d =
      ((stepStarts d.length 65536).map fun s =>
        iirOutputs c (specWarmState c d s)
          (slice d s (min (s + 65536) d.length))).flatten := by
  refine ⟨butterworthChunkOut_eq_spec c d, ?_, ?_⟩
  · rw [butterworthChunkOut_eq_spec c d 0]
    rfl
  · unfold butterworthParOut
    congr 1
    exact List.map_congr_left fun s _ => butterworthChunkOut_eq_spec c d s

/-! ## Partition disjointness and exhaustiveness (claim C2) -/

lemma mem_stepStarts {n cs s : ℕ} : s ∈ stepStarts n cs ↔ s < n ∧ s % cs = 0 := by
  simp [stepStarts, List.mem_filter, List.mem_range, Nat.beq_eq_true_eq]

lemma stepStarts_unique_cover {n cs : ℕ} (hcs : 0 < cs) {i : ℕ} (hi : i < n) :
    ∃! s, s ∈ stepStarts n cs ∧ s ≤ i ∧ i < s + cs := by
  have hdm : cs * (i / cs) + i % cs = i := Nat.div_add_mod i cs
  have hml : i % cs < cs := Nat.mod_lt i hcs
  refine ⟨cs * (i / cs), ⟨mem_stepStarts.mpr ⟨by omega, Nat.mul_mod_right cs _⟩,
    by omega, by omega⟩, ?_⟩
  rintro s ⟨hmem, hle, hlt⟩
  rcases mem_stepStarts.mp hmem with ⟨-, hmod⟩
  rcases Nat.dvd_of_mod_eq_zero hmod with ⟨q, rfl⟩
  have h1 : q ≤ i / cs := Nat.le_div_iff_mul_le hcs |>.mpr (by rw [mul_comm]; omega)
  have h2 : i / cs < q + 1 := by
    refine Nat.div_lt_iff_lt_mul hcs |>.mpr ?_
    have he : (q + 1) * cs = cs * q + cs := by ring
    omega
  have hq : q = i / cs := by omega
  rw [hq]

lemma stepStarts_disjoint {n cs : ℕ} {s1 s2 : ℕ}
    (h1 : s1 ∈ stepStarts n cs) (h2 : s2 ∈ stepStarts n cs) (hne : s1 ≠ s2) :
    Disjoint (Finset.Ico s1 (s1 + cs)) (Finset.Ico s2 (s2 + cs)) := by
  rcases mem_stepStarts.mp h1 with ⟨-, hm1⟩
  rcases mem_stepStarts.mp h2 with ⟨-, hm2⟩
  rcases Nat.dvd_of_mod_eq_zero hm1 with ⟨q1, rfl⟩
  rcases Nat.dvd_of_mod_eq_zero hm2 with ⟨q2, rfl⟩
  rw [Finset.disjoint_left]
  intro a ha1 ha2
  rcases Finset.mem_Ico.mp ha1 with ⟨ha11, ha12⟩
  rcases Finset.mem_Ico.mp ha2 with ⟨ha21, ha22⟩
  have he1 : cs * (q2 + 1) = cs * q2 + cs := by ring
  have he2 : cs * (q1 + 1) = cs * q1 + cs := by ring
  have hq1 : q1 < q2 + 1 := Nat.lt_of_mul_lt_mul_left (a := cs) (by omega)
  have hq2 : q2 < q1 + 1 := Nat.lt_of_mul_lt_mul_left (a := cs) (by omega)
  have hq : q1 = q2 := by omega
  exact hne (by rw [hq])

/-- The set of indices written by one FFT butterfly group: `{j, j + step
: group_start <= j < group_start + step}`. -/
def fftWriteSet (g step : ℕ) : Finset ℕ :=
  Finset.Ico g (g + step) ∪ (Finset.Ico g (g + step)).image (· + step)

lemma fftWriteSet_eq_Ico (g step : ℕ) :
    fftWriteSet g step = Finset.Ico g (g + 2 * step) := by
  ext i
  simp only [fftWriteSet, Finset.mem_union, Finset.mem_image, Finset.mem_Ico]
  constructor
  · rintro (⟨h1, h2⟩ | ⟨j, ⟨hj1, hj2⟩, rfl⟩) <;> omega
  · intro ⟨h1, h2⟩
    by_cases hc : i < g + step
    · exact Or.inl ⟨h1, hc⟩
    · exact Or.inr ⟨i - step, by omega, by omega⟩

/-- C2.  The index partitions used by the parallel kernels are disjoint
and exhaustive.  For `butterworth_lowpass`: the chunk ranges `[s,
min(s+65536, n))` over the starts produced by `step_by(65536)` are
pairwise disjoint, stay inside `[0, n)`, and each index below `n` lies
in exactly one of them.  For an FFT butterfly stage of half-width
`step` (`2*step` divides the power-of-two buffer length): the groups
starting at the multiples of `2*step` write pairwise disjoint index
sets `{j, j+step : g <= j < g+step}` covering `[0, n)`, each index
being written by exactly one group. -/
theorem claim2_partition_disjoint_exhaustive :
    (∀ n : ℕ,
      (∀ s1 ∈ stepStarts n 65536, ∀ s2 ∈ stepStarts n 65536, s1 ≠ s2 →
        Disjoint (Finset.Ico s1 (min (s1 + 65536) n)) (Finset.Ico s2 (min (s2 + 65536) n))) ∧
      (∀ s ∈ stepStarts n 65536, ∀ i ∈ Finset.Ico s (min (s + 65536) n), i < n) ∧
      (∀ i, i < n → ∃! s, s ∈ stepStarts n 65536 ∧ i ∈ Finset.Ico s (min (s + 65536) n))) ∧
    (∀ n step : ℕ, 0 < step → 2 * step ∣ n →
      (∀ g1 ∈ stepStarts n (2 * step), ∀ g2 ∈ stepStarts n (2 * step), g1 ≠ g2 →
        Disjoint (fftWriteSet g1 step) (fftWriteSet g2 step)) ∧
      (∀ g ∈ stepStarts n (2 * step), ∀ i ∈ fftWriteSet g step, i < n) ∧
      (∀ i, i < n → ∃! g, g ∈ stepStarts n (2 * step) ∧ i ∈ fftWriteSet g step)) := by
  constructor
  · intro n
    refine ⟨?_, ?_, ?_⟩
    · intro s1 h1 s2 h2 hne
      exact Finset.disjoint_of_subset_left (Finset.Ico_subset_Ico_right (min_le_left _ _))
        (Finset.disjoint_of_subset_right (Finset.Ico_subset_Ico_right (min_le_left _ _))
          (stepStarts_disjoint h1 h2 hne))
    · intro s _ i hi
      have := Finset.mem_Ico.mp hi
      omega
    · intro i hi
      rcases @stepStarts_unique_cover n 65536 (by norm_num) i hi with ⟨s, ⟨hs1, hs2, hs3⟩, hu⟩
      refine ⟨s, ⟨hs1, Finset.mem_Ico.mpr ⟨hs2, by omega⟩⟩, ?_⟩
      rintro s2 ⟨hm2, hic⟩
      rcases Finset.mem_Ico.mp hic with ⟨hic1, hic2⟩
      exact hu s2 ⟨hm2, hic1, by omega⟩
  · intro n step hstep hdvd
    rcases hdvd with ⟨p, hp⟩
    refine ⟨?_, ?_, ?_⟩
    · intro g1 h1 g2 h2 hne
      rw [fftWriteSet_eq_Ico, fftWriteSet_eq_Ico]
      exact stepStarts_disjoint h1 h2 hne
    · intro g hg i hi
      rcases mem_stepStarts.mp hg with ⟨hlt, hmod⟩
      rcases Nat.dvd_of_mod_eq_zero hmod with ⟨q, rfl⟩
      rw [fftWriteSet_eq_Ico, Finset.mem_Ico] at hi
      rw [hp] at hlt
      have hq : q < p := Nat.lt_of_mul_lt_mul_left hlt
      have h2 : 2 * step * (q + 1) ≤ 2 * step * p := Nat.mul_le_mul_left _ (by omega)
      have h3 : 2 * step * (q + 1) = 2 * step * q + 2 * step := by ring
      omega
    · intro i hi
      rcases @stepStarts_unique_cover n (2 * step) (by omega) i hi with ⟨g, ⟨hg1, hg2, hg3⟩, hu⟩
      refine ⟨g, ⟨hg1, by rw [fftWriteSet_eq_Ico]; exact Finset.mem_Ico.mpr ⟨hg2, hg3⟩⟩, ?_⟩
      rintro g2 ⟨hm2, hic⟩
      rw [fftWriteSet_eq_Ico] at hic
      rcases Finset.mem_Ico.mp hic with ⟨hic1, hic2⟩
      exact hu g2 ⟨hm2, hic1, hic2⟩

/-- Witness for C2: concrete instances of both partition statements. -/
theorem claim2_witness :
    (66000 < 70000 ∧
      (∃! s, s ∈ stepStarts 70000 65536 ∧ 66000 ∈ Finset.Ico s (min (s + 65536) 70000))) ∧
    (0 < 2 ∧ 2 * 2 ∣ 8 ∧ (∃! g, g ∈ stepStarts 8 (2 * 2) ∧ 5 ∈ fftWriteSet g 2)) :=
  ⟨⟨by decide, (claim2_partition_disjoint_exhaustive.1 70000).2.2 66000 (by decide)⟩,
   ⟨by decide, by decide,
    (claim2_partition_disjoint_exhaustive.2 8 2 (by decide) (by decide)).2.2 5 (by decide)⟩⟩

/-! ## Complex pairs

`fft_radix2` keeps separate `re`/`im` buffers whose elements are
combined exactly by complex addition and multiplication (`tr = wr*rek -
wi*imk`, `ti = wr*imk + wi*rek`, ...).  The embedding packages the pair
at one index as one value of `Cx R` and states the butterfly through the
ring operations, which unfold to precisely the source's formulas. -/

@[ext]
structure Cx (R : Type) where
  re : R
  im : R

namespace Cx

variable {R : Type} [CommRing R]

instance : Add (Cx R) := ⟨fun a b => ⟨a.re + b.re, a.im + b.im⟩⟩

instance : Mul (Cx R) := ⟨fun a b => ⟨a.re * b.re - a.im * b.im, a.re * b.im + a.im * b.re⟩⟩

instance : Neg (Cx R) := ⟨fun a => ⟨-a.re, -a.im⟩⟩

instance : Zero (Cx R) := ⟨⟨0, 0⟩⟩

instance : One (Cx R) := ⟨⟨1, 0⟩⟩

@[simp] lemma add_re (a b : Cx R) : (a + b).re = a.re + b.re := rfl

@[simp] lemma add_im (a b : Cx R) : (a + b).im = a.im + b.im := rfl

@[simp] lemma mul_re (a b : Cx R) : (a * b).re = a.re * b.re - a.im * b.im := rfl

@[simp] lemma mul_im (a b : Cx R) : (a * b).im = a.re * b.im + a.im * b.re := rfl

@[simp] lemma neg_re (a : Cx R) : (-a).re = -a.re := rfl

@[simp] lemma neg_im (a : Cx R) : (-a).im = -a.im := rfl

@[simp] lemma zero_re : (0 : Cx R).re = 0 := rfl

@[simp] lemma zero_im : (0 : Cx R).im = 0 := rfl

@[simp] lemma one_re : (1 : Cx R).re = 1 := rfl

@[simp] lemma one_im : (1 : Cx R).im = 0 := rfl

instance : CommRing (Cx R) where
  add_assoc a b c := by ext <;> simp <;> ring
  zero_add a := by ext <;> simp
  add_zero a := by ext <;> simp
  add_comm a b := by ext <;> simp <;> ring
  mul_assoc a b c := by ext <;> simp <;> ring
  one_mul a := by ext <;> simp
  mul_one a := by ext <;> simp
  left_distrib a b c := by ext <;> simp <;> ring
  right_distrib a b c := by ext <;> simp <;> ring
  zero_mul a := by ext <;> simp
  mul_zero a := by ext <;> simp
  mul_comm a b := by ext <;> simp <;> ring
  neg_add_cancel a := by ext <;> simp
  nsmul := nsmulRec
  zsmul := zsmulRec

@[simp] lemma sub_re (a b : Cx R) : (a - b).re = a.re - b.re := by
  rw [sub_eq_add_neg, sub_eq_add_neg]; rfl

@[simp] lemma sub_im (a b : Cx R) : (a - b).im = a.im - b.im := by
  rw [sub_eq_add_neg, sub_eq_add_neg]; rfl

/-- Componentwise scaling, as the inverse transform's final
`*= 1.0 / n` performs on both buffers. -/
def scale (r : R) (z : Cx R) : Cx R := ⟨r * z.re, r * z.im⟩

end Cx

/-! ## Radix-2 FFT (src/fft/mod.rs)

The stage loop's trigonometric twiddles `(cos(sign*pi/step),
sin(sign*pi/step))` are transcendental; the embedding takes the family
`w : step -> (cos(pi/step), sin(pi/step))` as a parameter and forms the
signed pair through `cos(-x) = cos x`, `sin(-x) = -sin x`.  The parallel
and sequential branches of each stage run the identical butterfly body
(only scheduling differs), so one embedding covers both. -/

/-- Halving loop behind `is_power_of_two`, structured on a fuel argument
so that it evaluates by kernel reduction; halving reaches `0` or `1`
within `n` steps, so fuel `n` always suffices. -/
def isPowTwoFuel : ℕ → ℕ → Bool
  | _, 0 => false
  | _, 1 => true
  | 0, _ + 2 => false
  | fuel + 1, n + 2 => decide ((n + 2) % 2 = 0) && isPowTwoFuel fuel ((n + 2) / 2)

/-- `n.is_power_of_two()`. -/
def isPowTwoB (n : ℕ) : Bool := isPowTwoFuel n n

/-- The stage's rotation `(wpr, wpi) = (cos(sign*pi/step),
sin(sign*pi/step))` with the sign folded into the imaginary part. -/
def stageW {R : Type} [CommRing R] (w : ℕ → R × R) (inverse : Bool) (step : ℕ) : Cx R :=
  ⟨(w step).1, if inverse then -(w step).2 else (w step).2⟩

/-- One butterfly write pair: the source's `t = (wr,wi)*(re[k],im[k])`,
then `a[j], a[k] = a[j] + t, a[j] - t`, followed by the twiddle
recurrence `(wr,wi) *= (wpr,wpi)`.  The state is (buffer, current
twiddle). -/
def bfly {R : Type} [CommRing R] (wp : Cx R) (st : (ℕ → Cx R) × Cx R) (j k : ℕ) :
    (ℕ → Cx R) × Cx R :=
  let t := st.2 * st.1 k
  let fj := st.1 j
  (fun m => if m = j then fj + t else if m = k then fj - t else st.1 m, st.2 * wp)

/-- The inner loop `for i in 0..step` of one butterfly group starting at
`g`, with the twiddle reset to `(1, 0)` at group entry. -/
def groupFold {R : Type} [CommRing R] (wp : Cx R) (step g : ℕ) (f : ℕ → Cx R) : ℕ → Cx R :=
  ((List.range step).foldl (fun st i => bfly wp st (g + i) (g + i + step)) (f, 1)).1

/-- One whole stage: the groups at starts `0, jump, 2*jump, ...` with
`jump = 2*step` (the parallel and sequential branches iterate the same
starts with the same body). -/
def stageFold {R : Type} [CommRing R] (wp : Cx R) (step n : ℕ) (f : ℕ → Cx R) : ℕ → Cx R :=
  (stepStarts n (2 * step)).foldl (fun acc g => groupFold wp step g acc) f

/-- The stage loop `while step < n { ...; step = jump }` starting from a
given `step`.  The `0 < step` guard only serves termination: the source
starts at `step = 1` and doubles, so `step = 0` is unreachable. -/
def stagesFrom {R : Type} [CommRing R] (w : ℕ → R × R) (inverse : Bool) (n step : ℕ)
    (f : ℕ → Cx R) : ℕ → Cx R :=
  if h : 0 < step ∧ step < n then
    stagesFrom w inverse n (2 * step) (stageFold (stageW w inverse step) step n f)
  else f
termination_by n - step
decreasing_by omega

/-- The inner `while k <= j { j -= k; k /= 2 }` of the bit-reversal
counter, followed by `j += k`.  With `k = 0` and `k <= j` the source
would loop forever; that state is unreachable for the power-of-two
lengths the FFT asserts (the counter stays below `n-1` at loop entry),
and the embedding returns `j` there. -/
def revStep (j k : ℕ) : ℕ :=
  if k = 0 then j
  else if k ≤ j then revStep (j - k) (k / 2)
  else j + k
termination_by k
decreasing_by omega

/-- Swap the values at indices `i` and `j`. -/
def swapF {R : Type} (f : ℕ → Cx R) (i j : ℕ) : ℕ → Cx R :=
  fun m => if m = i then f j else if m = j then f i else f m

/-- `bit_reverse_copy`: `for i in 0..n-1 { if i < j { swap i j };
j = revStep j (n/2) }`. -/
def bitRevCopy {R : Type} (n : ℕ) (f : ℕ → Cx R) : ℕ → Cx R :=
  ((List.range (n - 1)).foldl
    (fun (st : (ℕ → Cx R) × ℕ) i =>
      (if i < st.2 then swapF st.1 i st.2 else st.1, revStep st.2 (n / 2)))
    (f, 0)).1

/-- The computational core of `fft_radix2` (after its two assertions):
bit-reversal, the stage loop from `step = 1`, and for the inverse the
final division of every element by `n`. -/
def fftCore {R : Type} [Field R] (w : ℕ → R × R) (inverse : Bool) (n : ℕ)
    (f : ℕ → Cx R) : ℕ → Cx R :=
  let g := stagesFrom w inverse n 1 (bitRevCopy n f)
  if inverse then fun m => Cx.scale (1 / (n : R)) (g m) else g

/-- The two buffers of `fft_radix2` as a function of the index. -/
def toCx {R : Type} [Field R] (re im : List R) : ℕ → Cx R :=
  fun t => ⟨re.getD t 0, im.getD t 0⟩

/-- In-place `fft_radix2` on its two buffers, assertions assumed to have
passed (they precede every write). -/
def fft_radix2 {R : Type} [Field R] (w : ℕ → R × R) (re im : List R) (inverse : Bool) :
    List R × List R :=
  let n := re.length
  let g := fftCore w inverse n (toCx re im)
  ((List.range n).map fun t => (g t).re, (List.range n).map fun t => (g t).im)

/-- `ifft_radix2` forwards to `fft_radix2` with `inverse = true`. -/
def ifft_radix2 {R : Type} [Field R] (w : ℕ → R × R) (re im : List R) : List R × List R :=
  fft_radix2 w re im true

/-- Outcome of a call at the engine/wasm boundary: an ordinary value, an
explicit error value, or a panic (a failing assertion). -/
inductive EngineResult (α : Type) where
  | ok : α → EngineResult α
  | err : String → EngineResult α
  | panicked : String → EngineResult α
deriving DecidableEq

/-- `fft_radix2` with its two leading assertions (`n == im.len()`,
`n.is_power_of_two()`); both precede every buffer write. -/
def fftRadix2E {R : Type} [Field R] (w : ℕ → R × R) (re im : List R) (inverse : Bool) :
    EngineResult (List R × List R) :=
  if re.length ≠ im.length then .panicked "assertion failed: n == im.len()"
  else if isPowTwoB re.length then .ok (fft_radix2 w re im inverse)
  else .panicked "assertion failed: n.is_power_of_two()"

/-- `rfft_radix2`: assert the input length is a power of two, pack even
samples into the real half-buffer and odd samples into the imaginary
half-buffer, and run the half-length complex FFT (whose own assertions
still run). -/
def rfftRadix2E {R : Type} [Field R] (w : ℕ → R × R) (data : List R) :
    EngineResult (List R × List R) :=
  if isPowTwoB data.length then
    let halfn := data.length / 2
    let reOut := (List.range halfn).map fun i => data.getD (2 * i) 0
    let imOut := (List.range halfn).map fun i => data.getD (2 * i + 1) 0
    fftRadix2E w reOut imOut false
  else .panicked "assertion failed: n.is_power_of_two()"

/-- Interleave two equal-length buffers element by element (the output
loops of `ifft_wasm` and `rfft_wasm`). -/
def interleavePairs {R : Type} (a b : List R) : List R :=
  ((a.zip b).map fun p => [p.1, p.2]).flatten

/-- `ifft_wasm`: explicit error for mismatched lengths, then for a
non-power-of-two length, else run the inverse transform and interleave
the two result buffers. -/
def ifftWasm {R : Type} [Field R] (w : ℕ → R × R) (re im : List R) :
    EngineResult (List R) :=
  if re.length ≠ im.length then .err "Real and imaginary parts must have the same length"
  else if isPowTwoB re.length then
    let p := ifft_radix2 w re im
    .ok (interleavePairs p.1 p.2)
  else .err "Length must be a power of two"

/-- `rfft_wasm`: explicit error for a non-power-of-two input length, else
allocate the half-length buffers and run `rfft_radix2`, interleaving the
halves on success. -/
def rfftWasm {R : Type} [Field R] (w : ℕ → R × R) (data : List R) :
    EngineResult (List R) :=
  if isPowTwoB data.length then
    match rfftRadix2E w data with
    | .ok p => .ok (interleavePairs p.1 p.2)
    | .err msg => .err msg
    | .panicked msg => .panicked msg
  else .err "Input length must be a power of two"

/-! ## The buffer registry (src/engine_core/memory.rs, mod.rs)

`EngineState` models `vectors: HashMap<u32, Vec<f64>>` as an association
list where insertion replaces any prior binding, plus the `next_id`
counter.  The `f32` table and the column names play no part in the
claims. -/

structure EngineState where
  vectors : List (ℕ × List ℚ)
  nextId : ℕ

/-- `self.state.vectors.get(&h)`. -/
def lookupVec (s : EngineState) (h : ℕ) : Option (List ℚ) :=
  (s.vectors.find? fun p => p.1 == h).map Prod.snd

/-- `self.state.vectors.insert(h, v)` (replaces any existing binding). -/
def insertVec (s : EngineState) (h : ℕ) (v : List ℚ) : EngineState :=
  { s with vectors := (h, v) :: s.vectors.filter fun p => !(p.1 == h) }

/-- `EngineState::create_vector`: bind the next id to a zero buffer of
the requested size and bump the counter; returns the fresh id. -/
def createVector (s : EngineState) (size : ℕ) : ℕ × EngineState :=
  (s.nextId, { vectors := (insertVec s s.nextId (List.replicate size 0)).vectors,
               nextId := s.nextId + 1 })

/-- The empty registry (`EngineState::new`). -/
def initState : EngineState := ⟨[], 0⟩

/-! ### The kernels the registry claims touch -/

/-- `signal::resample` (linear resampling).  Note: with `new_len = 1`
(and a longer input) the source divides by `new_len - 1 = 0`, producing
an infinite ratio and a NaN index in floats; the rational model reads
`data[0]` there.  No claim depends on resampled values, only on the
result's length `new_len`. -/
def resample (data : List ℚ) (newLen : ℕ) : List ℚ :=
  if data.isEmpty ∨ newLen = 0 then []
  else if data.length = newLen then data
  else
    let rto : ℚ := ((data.length - 1 : ℕ) : ℚ) / ((newLen - 1 : ℕ) : ℚ)
    (List.range newLen).map fun i =>
      let srcIdx : ℚ := (i : ℚ) * rto
      let x1 : ℕ := ⌊srcIdx⌋.toNat
      let x2 : ℕ := min (x1 + 1) (data.length - 1)
      let t : ℚ := srcIdx - (x1 : ℚ)
      bufGet data x1 * (1 - t) + bufGet data x2 * t

/-- Modelled from the spec: the body of `crate::analysis::decimate` is
absent from the sources (only its caller `SciEngine::decimate` is
present), and the spec specifies it only through the registry contract
(a result of a different size is installed as a whole vector).  The
kernel is modelled as keeping every `factor`-th sample, the standard
meaning of decimation; no claim depends on the kept values, only on the
installation of the result under the caller-supplied id. -/
def decimateKernel (v : List ℚ) (factor : ℕ) : List ℚ :=
  if factor = 0 then [] else (stepStarts v.length factor).map (bufGet v)

/-- Representation of `f64::NAN` in the rational model.  NaN has no
rational counterpart; the model stores `0` in its place.  The claims
about `import_csv` concern only buffer lengths and registry bindings,
never imported values, and every field contributes exactly one element
regardless of how it parses. -/
def nanRepr : ℚ := 0

/-- ASCII whitespace as trimmed by the importer. -/
def isWS (b : ℕ) : Bool := b == 32 || b == 9 || b == 10 || b == 12 || b == 13

/-- Trim leading and trailing ASCII whitespace from a field. -/
def trimField (f : List ℕ) : List ℕ :=
  ((f.dropWhile isWS).reverse.dropWhile isWS).reverse

/-- All-decimal-digit run parsed as a natural number. -/
def parseDigits (ds : List ℕ) : Option ℕ :=
  if ds.isEmpty then none
  else if ds.all fun b => decide (48 ≤ b ∧ b ≤ 57) then
    some (ds.foldl (fun a b => 10 * a + (b - 48)) 0)
  else none

/-- Models the external `fast_float` crate's parser on the plain decimal
fragment (optional sign, digits, optional fractional part); anything
else fails.  Only totality matters to the claims: each field contributes
exactly one buffer element whether or not it parses. -/
def fastFloatParse (f : List ℕ) : Option ℚ :=
  let sr : ℚ × List ℕ :=
    match f with
    | 45 :: r => (-1, r)
    | 43 :: r => (1, r)
    | r => (1, r)
  match sr.2.splitOn 46 with
  | [ip] => (parseDigits ip).map fun v => sr.1 * v
  | [ip, fp] =>
    match parseDigits ip, parseDigits fp with
    | some v, some u => some (sr.1 * ((v : ℚ) + (u : ℚ) / 10 ^ fp.length))
    | _, _ => none
  | _ => none

/-- `run_import_csv` (src/engine_core/import.rs): newline positions give
line starts; lines after `skip` are windowed in adjacent pairs (the line
after the final newline is never covered by a window); each line is
split on the delimiter, fields are trimmed, and empty or unparseable
fields yield NaN. -/
def runImportCsv (data : List ℕ) (delim skip : ℕ) : List ℚ :=
  let lineStarts :=
    0 :: ((List.range data.length).filter fun i => data.getD i 0 == 10).map (· + 1)
  if lineStarts.length ≤ skip then []
  else
    let rest := lineStarts.drop skip
    ((rest.zip rest.tail).map fun p =>
      let start := p.1
      let e := p.2 - 1
      if e ≤ start then []
      else
        (((slice data start e).splitOn delim).map fun field =>
          let f := trimField field
          if f.isEmpty then nanRepr
          else match fastFloatParse f with
            | some v => v
            | none => nanRepr)).flatten

/-- `SciEngine::import_csv`: run the importer; an empty result changes
nothing, otherwise `create_vector(0)` reserves a fresh id whose binding
is immediately replaced by the imported vector. -/
def importCsvOp (s : EngineState) (data : List ℕ) (delim skip : ℕ) : EngineState :=
  let val := runImportCsv data delim skip
  if val.isEmpty then s
  else
    let c := createVector s 0
    insertVec c.2 c.1 val

/-- The engine operations the registry claim ranges over. -/
inductive EngineOp where
  | createVec (size : ℕ)
  | importCsv (data : List ℕ) (delim skip : ℕ)
  | decimate (idIn factor idOut : ℕ)
  | resampleLinear (idIn newLen idOut : ℕ)

/-- One engine call.  `decimate` and `resample_linear` return an error
(without mutation) when the input id is unknown, else install the result
vector under the caller-supplied `id_out`. -/
def applyOp (s : EngineState) : EngineOp → EngineState
  | .createVec size => (createVector s size).2
  | .importCsv d delim skip => importCsvOp s d delim skip
  | .decimate idIn factor idOut =>
    match lookupVec s idIn with
    | none => s
    | some v => insertVec s idOut (decimateKernel v factor)
  | .resampleLinear idIn newLen idOut =>
    match lookupVec s idIn with
    | none => s
    | some v => insertVec s idOut (resample v newLen)

/-- Run a call sequence from the fresh engine. -/
def runOps (ops : List EngineOp) : EngineState := ops.foldl applyOp initState

/-- The size recorded when a handle was created: replay the id counter,
remembering each handle's creation size (`create_vector(size)`, and the
reserved id of a successful `import_csv`, created with size `0`). -/
def recordStep (st : List (ℕ × ℕ) × ℕ) : EngineOp → List (ℕ × ℕ) × ℕ
  | .createVec size => ((st.2, size) :: st.1, st.2 + 1)
  | .importCsv d delim skip =>
    if (runImportCsv d delim skip).isEmpty then st else ((st.2, 0) :: st.1, st.2 + 1)
  | .decimate _ _ _ => st
  | .resampleLinear _ _ _ => st

/-- The length recorded at creation of handle `h` over a call sequence. -/
def recordedLen (ops : List EngineOp) (h : ℕ) : Option ℕ :=
  ((ops.foldl recordStep ([], 0)).1.find? fun p => p.1 == h).map Prod.snd

/-- Claim C1 as stated: after any sequence of engine operations, every
handle present in the registry resolves to a buffer of the length
recorded when the handle was created. -/
def claimOneStated : Prop :=
  ∀ (ops : List EngineOp) (h : ℕ) (v : List ℚ),
    lookupVec (runOps ops) h = some v → recordedLen ops h = some v.length

/-- C1 counterexample: create handle 0 with length 4 and handle 1 with
length 8, then `resample_linear(1, 2, 0)`: handle 0 now resolves to the
length-2 result although its recorded creation length is 4. -/
theorem claim1_counterexample : ¬ claimOneStated := by
  intro hcl
  have h := hcl [.createVec 4, .createVec 8, .resampleLinear 1 2 0] 0
    (resample (List.replicate 8 0) 2) rfl
  have hrec : recordedLen [EngineOp.createVec 4, EngineOp.createVec 8,
      EngineOp.resampleLinear 1 2 0] 0 = some 4 := rfl
  have hlen : (resample (List.replicate 8 0) 2).length = 2 := rfl
  rw [hrec, hlen] at h
  simp at h

/-- The id under which an operation installs a vector (if any): the
fresh id for `create_vector` and a successful `import_csv`, the
caller-supplied `id_out` for `decimate` and `resample_linear`. -/
def opTarget (s : EngineState) : EngineOp → Option ℕ
  | .createVec _ => some s.nextId
  | .importCsv d delim skip =>
    if (runImportCsv d delim skip).isEmpty then none else some s.nextId
  | .decimate _ _ idOut => some idOut
  | .resampleLinear _ _ idOut => some idOut

lemma find?_filter_ne (l : List (ℕ × List ℚ)) (id h : ℕ) (hne : h ≠ id) :
    (l.filter fun p => !(p.1 == id)).find? (fun p => p.1 == h) =
      l.find? (fun p => p.1 == h) := by
  induction l with
  | nil => rfl
  | cons a l ih =>
      by_cases ha : a.1 = id
      · have h1 : (!(a.1 == id)) = false := by simp [ha]
        have h2 : (a.1 == h) = false := by simp only [beq_eq_false_iff_ne, ne_eq]; omega
        simp [List.filter_cons, h1, List.find?_cons, h2, ih]
      · have h1 : (!(a.1 == id)) = true := by simp [ha]
        simp [List.filter_cons, h1, List.find?_cons, ih]

lemma lookupVec_insert_ne (s : EngineState) (id : ℕ) (v : List ℚ) (h : ℕ) (hne : h ≠ id) :
    lookupVec (insertVec s id v) h = lookupVec s h := by
  unfold lookupVec insertVec
  simp only [List.find?_cons]
  have hh : ((id, v).1 == h) = false := by simp [Ne.symm hne]
  rw [hh]
  rw [find?_filter_ne s.vectors id h hne]

lemma lookupVec_insert_self (s : EngineState) (id : ℕ) (v : List ℚ) :
    lookupVec (insertVec s id v) id = some v := by
  unfold lookupVec insertVec
  simp [List.find?_cons]

/-- C1 (amended).  No engine operation resizes the buffer of any handle
other than its own install target: every untargeted handle resolves to
the same buffer before and after the call.  The target id is rebound to
the whole result vector: fresh ids of the recorded size for
`create_vector` and `import_csv`'s reservation, and the caller-supplied
`id_out` for `decimate` and `resample_linear` — for those two the code
never compares the result's length against the length recorded when
`id_out` was created, which is what the claim as stated would require. -/
theorem claim1_registry_amended :
    (∀ (s : EngineState) (op : EngineOp) (h : ℕ), some h ≠ opTarget s op →
      lookupVec (applyOp s op) h = lookupVec s h) ∧
    (∀ (s : EngineState) (idIn newLen idOut : ℕ) (v : List ℚ),
      lookupVec s idIn = some v →
      lookupVec (applyOp s (.resampleLinear idIn newLen idOut)) idOut =
        some (resample v newLen)) ∧
    (∀ (s : EngineState) (idIn factor idOut : ℕ) (v : List ℚ),
      lookupVec s idIn = some v →
      lookupVec (applyOp s (.decimate idIn factor idOut)) idOut =
        some (decimateKernel v factor)) ∧
    (∀ (s : EngineState) (size : ℕ),
      lookupVec (applyOp s (.createVec size)) s.nextId =
        some (List.replicate size 0)) ∧
    (∀ (s : EngineState) (data : List ℕ) (delim skip : ℕ),
      ¬ (runImportCsv data delim skip).isEmpty = true →
      lookupVec (applyOp s (.importCsv data delim skip)) s.nextId =
        some (runImportCsv data delim skip)) := by
  refine ⟨?_, ?_, ?_, ?_, ?_⟩
  · intro s op h hne
    cases op with
    | createVec size =>
        have hz : h ≠ s.nextId := by
          intro heq; exact hne (by rw [heq]; rfl)
        exact lookupVec_insert_ne s s.nextId (List.replicate size 0) h hz
    | importCsv d delim skip =>
        show lookupVec (importCsvOp s d delim skip) h = lookupVec s h
        by_cases he : (runImportCsv d delim skip).isEmpty
        · simp only [importCsvOp, if_pos he]
        · have hz : h ≠ s.nextId := by
            intro heq
            apply hne
            rw [heq]
            show some s.nextId = opTarget s (.importCsv d delim skip)
            simp only [opTarget, if_neg he]
          simp only [importCsvOp, if_neg he]
          have hc1 : lookupVec (insertVec (createVector s 0).2 (createVector s 0).1
              (runImportCsv d delim skip)) h =
              lookupVec (createVector s 0).2 h :=
            lookupVec_insert_ne (createVector s 0).2 s.nextId _ h hz
          rw [hc1]
          exact lookupVec_insert_ne s s.nextId (List.replicate 0 0) h hz
    | decimate idIn factor idOut =>
        have hz : h ≠ idOut := by intro heq; exact hne (by rw [heq]; rfl)
        simp only [applyOp]
        cases hv : lookupVec s idIn with
        | none => rfl
        | some v => exact lookupVec_insert_ne s idOut _ h hz
    | resampleLinear idIn newLen idOut =>
        have hz : h ≠ idOut := by intro heq; exact hne (by rw [heq]; rfl)
        simp only [applyOp]
        cases hv : lookupVec s idIn with
        | none => rfl
        | some v => exact lookupVec_insert_ne s idOut _ h hz
  · intro s idIn newLen idOut v hv
    simp only [applyOp, hv]
    exact lookupVec_insert_self s idOut _
  · intro s idIn factor idOut v hv
    simp only [applyOp, hv]
    exact lookupVec_insert_self s idOut _
  · intro s size
    exact lookupVec_insert_self s s.nextId _
  · intro s data delim skip he
    show lookupVec (importCsvOp s data delim skip) s.nextId = _
    simp only [importCsvOp, if_neg he]
    exact lookupVec_insert_self (createVector s 0).2 s.nextId _

/-- Witness for C1 (amended): after creating handles 0 and 1,
`resample_linear(1, 5, 7)` leaves handle 0's buffer untouched; and
importing the two-line CSV `"1\n2\n"` into the fresh engine installs the
whole imported vector under the reserved id 0. -/
theorem claim1_witness :
    (some 0 ≠ opTarget (runOps [EngineOp.createVec 3, EngineOp.createVec 8])
      (EngineOp.resampleLinear 1 5 7) ∧
    lookupVec (applyOp (runOps [EngineOp.createVec 3, EngineOp.createVec 8])
        (EngineOp.resampleLinear 1 5 7)) 0 =
      lookupVec (runOps [EngineOp.createVec 3, EngineOp.createVec 8]) 0) ∧
    (¬ (runImportCsv [49, 10, 50, 10] 44 0).isEmpty = true ∧
    lookupVec (applyOp initState (EngineOp.importCsv [49, 10, 50, 10] 44 0))
        initState.nextId =
      some (runImportCsv [49, 10, 50, 10] 44 0)) :=
  ⟨⟨by decide,
    claim1_registry_amended.1 (runOps [EngineOp.createVec 3, EngineOp.createVec 8])
      (EngineOp.resampleLinear 1 5 7) 0 (by decide)⟩,
   ⟨by decide,
    claim1_registry_amended.2.2.2.2 initState [49, 10, 50, 10] 44 0 (by decide)⟩⟩

/-! ## FFT error handling at the engine boundary (claims C4, C10) -/

/-- `SciEngine::fft`: error values for a missing vector or mismatched
lengths; otherwise the buffers are handed to `fft_radix2`, whose
power-of-two assertion can panic.  The returned state is the registry
after the call (unchanged on every error and panic path: the assertions
precede every buffer write). -/
def sciEngineFft (w : ℕ → ℚ × ℚ) (s : EngineState) (reId imId : ℕ) (inverse : Bool) :
    EngineResult Unit × EngineState :=
  match lookupVec s reId with
  | none => (.err "Real vector not found", s)
  | some reV =>
    match lookupVec s imId with
    | none => (.err "Imag vector not found", s)
    | some imV =>
      if imV.length ≠ reV.length then
        (.err "Real and imag vectors must have same length", s)
      else
        match fftRadix2E w reV imV inverse with
        | .ok p => (.ok (), insertVec (insertVec s reId p.1) imId p.2)
        | .err msg => (.err msg, s)
        | .panicked msg => (.panicked msg, s)

/-- Claim C4 as stated: every FFT entry point returns an explicit error
value (with no prior mutation) whenever the length is not a power of two
or the two buffers mismatch — including `SciEngine::fft`. -/
def claimFourStated : Prop :=
  (∀ (w : ℕ → ℚ × ℚ) (s : EngineState) (reId imId : ℕ) (inv : Bool) (reV imV : List ℚ),
    lookupVec s reId = some reV → lookupVec s imId = some imV →
    (isPowTwoB reV.length = false ∨ reV.length ≠ imV.length) →
    (∃ msg, (sciEngineFft w s reId imId inv).1 = EngineResult.err msg) ∧
    (sciEngineFft w s reId imId inv).2 = s) ∧
  (∀ (w : ℕ → ℚ × ℚ) (re im : List ℚ),
    (isPowTwoB re.length = false ∨ re.length ≠ im.length) →
    ∃ msg, ifftWasm w re im = EngineResult.err msg) ∧
  (∀ (w : ℕ → ℚ × ℚ) (d : List ℚ),
    isPowTwoB d.length = false → ∃ msg, rfftWasm w d = EngineResult.err msg)

/-- C4 counterexample: two registered vectors of length 3 (equal, not a
power of two).  `SciEngine::fft` reaches `fft_radix2`'s
`assert!(n.is_power_of_two())` and panics instead of returning an error
value. -/
theorem claim4_counterexample : ¬ claimFourStated := by
  intro hcl
  have h := hcl.1 (fun _ => (1, 0)) (runOps [.createVec 3, .createVec 3]) 0 1 false
    (List.replicate 3 0) (List.replicate 3 0) rfl rfl (Or.inl (by decide))
  rcases h.1 with ⟨msg, hmsg⟩
  have hp : (sciEngineFft (fun _ => (1, 0)) (runOps [.createVec 3, .createVec 3]) 0 1
      false).1 = EngineResult.panicked "assertion failed: n.is_power_of_two()" := rfl
  rw [hp] at hmsg
  exact EngineResult.noConfusion hmsg

/-- C4 (amended).  `ifft_wasm` and `rfft_wasm` return explicit error
values for a non-power-of-two length (and, for `ifft_wasm`, mismatched
buffers), before touching any buffer.  `SciEngine::fft` returns explicit
errors only for a missing vector or mismatched lengths, leaving the
registry unchanged; a non-power-of-two length instead reaches
`fft_radix2`'s assertion and panics — still before any buffer write, so
the registry is unchanged, but it is a panic, not an error value. -/
theorem claim4_fft_invalid_length_amended :
    (∀ (w : ℕ → ℚ × ℚ) (re im : List ℚ),
      (isPowTwoB re.length = false ∨ re.length ≠ im.length) →
      ∃ msg, ifftWasm w re im = EngineResult.err msg) ∧
    (∀ (w : ℕ → ℚ × ℚ) (d : List ℚ),
      isPowTwoB d.length = false → ∃ msg, rfftWasm w d = EngineResult.err msg) ∧
    (∀ (w : ℕ → ℚ × ℚ) (s : EngineState) (reId imId : ℕ) (inv : Bool) (reV imV : List ℚ),
      lookupVec s reId = some reV → lookupVec s imId = some imV →
      imV.length ≠ reV.length →
      (∃ msg, (sciEngineFft w s reId imId inv).1 = EngineResult.err msg) ∧
      (sciEngineFft w s reId imId inv).2 = s) ∧
    (∀ (w : ℕ → ℚ × ℚ) (s : EngineState) (reId imId : ℕ) (inv : Bool) (reV imV : List ℚ),
      lookupVec s reId = some reV → lookupVec s imId = some imV →
      imV.length = reV.length → isPowTwoB reV.length = false →
      (∃ msg, (sciEngineFft w s reId imId inv).1 = EngineResult.panicked msg) ∧
      (sciEngineFft w s reId imId inv).2 = s) := by
  refine ⟨?_, ?_, ?_, ?_⟩
  · intro w re im hbad
    unfold ifftWasm
    by_cases hlen : re.length ≠ im.length
    · rw [if_pos hlen]
      exact ⟨_, rfl⟩
    · rw [if_neg hlen]
      have hp2 : isPowTwoB re.length = false := by tauto
      rw [hp2]
      exact ⟨_, rfl⟩
  · intro w d hp2
    unfold rfftWasm
    rw [hp2]
    exact ⟨_, rfl⟩
  · intro w s reId imId inv reV imV hre him hne
    simp only [sciEngineFft, hre, him]
    rw [if_pos hne]
    exact ⟨⟨_, rfl⟩, rfl⟩
  · intro w s reId imId inv reV imV hre him heq hp2
    simp only [sciEngineFft, hre, him]
    rw [if_neg (by omega : ¬ imV.length ≠ reV.length)]
    have hfe : fftRadix2E w reV imV inv =
        EngineResult.panicked "assertion failed: n.is_power_of_two()" := by
      unfold fftRadix2E
      rw [if_neg (by omega : ¬ reV.length ≠ imV.length), hp2]
      rfl
    rw [hfe]
    exact ⟨⟨_, rfl⟩, rfl⟩

/-- Witness for C4 (amended): mismatched lengths (2 vs 4) at `ifft_wasm`
give an explicit error, and the engine call on handles of lengths 4 and
2 errors without touching the registry. -/
theorem claim4_witness :
    ((isPowTwoB ([(1 : ℚ), 2]).length = false ∨ ([(1 : ℚ), 2]).length ≠ ([] : List ℚ).length) ∧
      ∃ msg, ifftWasm (fun _ => (1, 0)) [(1 : ℚ), 2] [] = EngineResult.err msg) ∧
    ((∃ msg, (sciEngineFft (fun _ => (1, 0)) (runOps [.createVec 4, .createVec 2]) 0 1
        false).1 = EngineResult.err msg) ∧
      (sciEngineFft (fun _ => (1, 0)) (runOps [.createVec 4, .createVec 2]) 0 1 false).2 =
        runOps [.createVec 4, .createVec 2]) :=
  ⟨⟨Or.inr (by decide),
    claim4_fft_invalid_length_amended.1 (fun _ => (1, 0)) [(1 : ℚ), 2] [] (Or.inr (by decide))⟩,
   claim4_fft_invalid_length_amended.2.2.1 (fun _ => (1, 0))
     (runOps [.createVec 4, .createVec 2]) 0 1 false
     (List.replicate 4 0) (List.replicate 2 0) rfl rfl (by decide)⟩

/-- C10.  `rfft_wasm` returns an explicit error for every
non-power-of-two input length (including length 0); but the length-1
input passes that validation, the half-length buffers have length 0, and
the inner `fft_radix2` call's power-of-two assertion fails on length 0 —
a panic reachable from the validated public entry point. -/
theorem claim10_rfft_length_one_panic :
    (∀ {R : Type} [Field R] (w : ℕ → R × R) (d : List R),
      isPowTwoB d.length = false → ∃ msg, rfftWasm w d = EngineResult.err msg) ∧
    (∀ {R : Type} [Field R] (w : ℕ → R × R) (x : R),
      rfftWasm w [x] =
        EngineResult.panicked "assertion failed: n.is_power_of_two()") := by
  constructor
  · intro R _ w d hp2
    unfold rfftWasm
    rw [hp2]
    exact ⟨_, rfl⟩
  · intro R _ w x
    simp [rfftWasm, rfftRadix2E, fftRadix2E, isPowTwoB, isPowTwoFuel]

/-- Witness for C10: length 0 errors explicitly, length 1 panics. -/
theorem claim10_witness :
    (isPowTwoB (List.length ([] : List ℚ)) = false ∧
      ∃ msg, rfftWasm (fun _ => (1, 0)) ([] : List ℚ) = EngineResult.err msg) ∧
    rfftWasm (fun _ => (1, 0)) [(1 : ℚ)] =
      EngineResult.panicked "assertion failed: n.is_power_of_two()" :=
  ⟨⟨by decide, claim10_rfft_length_one_panic.1 (fun _ => (1, 0)) ([] : List ℚ) (by decide)⟩,
   claim10_rfft_length_one_panic.2 (fun _ => (1, 0)) (1 : ℚ)⟩

/-! ## Bit reversal: the counter loop computes the bit-reversed
increment, and the swap loop realises the bit-reversal permutation. -/

/-- Reversal of the low `m` bits of a number. -/
def bitrev : ℕ → ℕ → ℕ
  | 0, _ => 0
  | m + 1, q => q % 2 * 2 ^ m + bitrev m (q / 2)

@[simp] lemma bitrev_zero_right (m : ℕ) : bitrev m 0 = 0 := by
  induction m with
  | zero => rfl
  | succ m ih => simp [bitrev, ih]

lemma bitrev_lt (m q : ℕ) : bitrev m q < 2 ^ m := by
  induction m generalizing q with
  | zero => simp [bitrev]
  | succ m ih =>
      have h1 := ih (q / 2)
      have h2 : q % 2 = 0 ∨ q % 2 = 1 := by omega
      have hp : (2 : ℕ) ^ (m + 1) = 2 ^ m * 2 := by ring
      rcases h2 with h | h <;> simp [bitrev, h, hp] <;> omega

/-- Peeling the high bit instead of the low bit. -/
lemma bitrev_high (m : ℕ) : ∀ q, q < 2 ^ (m + 1) →
    bitrev (m + 1) q = q / 2 ^ m + 2 * bitrev m (q % 2 ^ m) := by
  induction m with
  | zero =>
      intro q hq
      interval_cases q <;> rfl
  | succ m ih =>
      intro q hq
      have e1 : bitrev (m + 2) q = q % 2 * 2 ^ (m + 1) + bitrev (m + 1) (q / 2) := rfl
      have hq2 : q / 2 < 2 ^ (m + 1) := by
        have h2p : (2 : ℕ) ^ (m + 2) = 2 ^ (m + 1) * 2 := by ring
        omega
      rw [e1, ih (q / 2) hq2]
      have e2 : bitrev (m + 1) (q % 2 ^ (m + 1)) =
          (q % 2 ^ (m + 1)) % 2 * 2 ^ m + bitrev m ((q % 2 ^ (m + 1)) / 2) := rfl
      rw [e2]
      have h1 : (q % 2 ^ (m + 1)) % 2 = q % 2 :=
        Nat.mod_mod_of_dvd q (dvd_pow_self 2 (Nat.succ_ne_zero m))
      have h2 : (q % 2 ^ (m + 1)) / 2 = q / 2 % 2 ^ m := by
        have e3 : (2 : ℕ) ^ (m + 1) = 2 * 2 ^ m := by ring
        rw [e3, Nat.mod_mul_right_div_self]
      have h3 : q / 2 / 2 ^ m = q / 2 ^ (m + 1) := by
        rw [Nat.div_div_eq_div_mul]
        congr 1
        ring
      rw [h1, h2, h3]
      ring

lemma bitrev_bitrev (m : ℕ) : ∀ q, q < 2 ^ m → bitrev m (bitrev m q) = q := by
  induction m with
  | zero =>
      intro q hq
      simp [bitrev]
      omega
  | succ m ih =>
      intro q hq
      have e1 : bitrev (m + 1) q = q % 2 * 2 ^ m + bitrev m (q / 2) := rfl
      have hlt : bitrev m (q / 2) < 2 ^ m := bitrev_lt m (q / 2)
      have hb : q % 2 * 2 ^ m + bitrev m (q / 2) < 2 ^ (m + 1) := by
        have h2 : q % 2 = 0 ∨ q % 2 = 1 := by omega
        have hp : (2 : ℕ) ^ (m + 1) = 2 ^ m * 2 := by ring
        rcases h2 with h | h <;> rw [h] <;> omega
      rw [e1, bitrev_high m _ hb]
      have hdiv : (q % 2 * 2 ^ m + bitrev m (q / 2)) / 2 ^ m = q % 2 := by
        rw [mul_comm, Nat.mul_add_div (pow_pos (by norm_num) m),
          Nat.div_eq_of_lt hlt, Nat.add_zero]
      have hmod : (q % 2 * 2 ^ m + bitrev m (q / 2)) % 2 ^ m = bitrev m (q / 2) := by
        rw [mul_comm, Nat.mul_add_mod, Nat.mod_eq_of_lt hlt]
      rw [hdiv, hmod]
      have hq2 : q / 2 < 2 ^ m := by
        have hp : (2 : ℕ) ^ (m + 1) = 2 ^ m * 2 := by ring
        omega
      rw [ih (q / 2) hq2]
      omega

lemma bitrev_last (m : ℕ) : bitrev m (2 ^ m - 1) = 2 ^ m - 1 := by
  induction m with
  | zero => rfl
  | succ m ih =>
      have hp : (2 : ℕ) ^ (m + 1) = 2 ^ m * 2 := by ring
      have hpos : 0 < (2 : ℕ) ^ m := pow_pos (by norm_num) m
      have e1 : bitrev (m + 1) (2 ^ (m + 1) - 1) =
          (2 ^ (m + 1) - 1) % 2 * 2 ^ m + bitrev m ((2 ^ (m + 1) - 1) / 2) := rfl
      have h1 : (2 ^ (m + 1) - 1) % 2 = 1 := by omega
      have h2 : (2 ^ (m + 1) - 1) / 2 = 2 ^ m - 1 := by omega
      rw [e1, h1, h2, ih]
      omega

/-- The increment lemma for the bit-reversed counter: one pass of the
inner loop (followed by `j += k`) sends `bitrev m i` to
`bitrev m (i+1)`. -/
lemma revStep_bitrev (m : ℕ) : ∀ i, i + 1 < 2 ^ m →
    revStep (bitrev m i) (2 ^ m / 2) = bitrev m (i + 1) := by
  induction m with
  | zero => omega
  | succ m ih =>
      intro i hi
      have hpos : 0 < (2 : ℕ) ^ m := pow_pos (by norm_num) m
      have hp : (2 : ℕ) ^ (m + 1) = 2 ^ m * 2 := by ring
      have hk : (2 : ℕ) ^ (m + 1) / 2 = 2 ^ m := by omega
      rw [hk]
      have hlt : bitrev m (i / 2) < 2 ^ m := bitrev_lt m (i / 2)
      rcases Nat.even_or_odd i with he | ho
      · have h0 : i % 2 = 0 := Nat.even_iff.mp he
        have e1 : bitrev (m + 1) i = bitrev m (i / 2) := by
          show i % 2 * 2 ^ m + bitrev m (i / 2) = _
          rw [h0]; ring
        have e2 : bitrev (m + 1) (i + 1) = 2 ^ m + bitrev m (i / 2) := by
          show (i + 1) % 2 * 2 ^ m + bitrev m ((i + 1) / 2) = _
          have ha : (i + 1) % 2 = 1 := by omega
          have hb : (i + 1) / 2 = i / 2 := by omega
          rw [ha, hb]; ring
        rw [e1, e2, revStep]
        rw [if_neg (by omega), if_neg (by omega)]
        omega
      · have h1 : i % 2 = 1 := Nat.odd_iff.mp ho
        have e1 : bitrev (m + 1) i = 2 ^ m + bitrev m (i / 2) := by
          show i % 2 * 2 ^ m + bitrev m (i / 2) = _
          rw [h1]; ring
        have e2 : bitrev (m + 1) (i + 1) = bitrev m (i / 2 + 1) := by
          show (i + 1) % 2 * 2 ^ m + bitrev m ((i + 1) / 2) = _
          have ha : (i + 1) % 2 = 0 := by omega
          have hb : (i + 1) / 2 = i / 2 + 1 := by omega
          rw [ha, hb]; ring
        rw [e1, e2, revStep]
        rw [if_neg (by omega), if_pos (by omega)]
        have hsub : 2 ^ m + bitrev m (i / 2) - 2 ^ m = bitrev m (i / 2) := by omega
        rw [hsub]
        exact ih (i / 2) (by omega)

/-- The array contents midway through the bit-reversal loop: positions
whose pair `{t, bitrev t}` has already been visited hold the swapped
value, the rest are untouched. -/
def revPartial {R : Type} (m : ℕ) (f : ℕ → Cx R) (c : ℕ) : ℕ → Cx R := fun t =>
  if t < 2 ^ m ∧ min t (bitrev m t) < c then f (bitrev m t) else f t

lemma revPartial_step {R : Type} (m c : ℕ) (f : ℕ → Cx R) (hc : c < 2 ^ m) :
    (if c < bitrev m c then swapF (revPartial m f c) c (bitrev m c)
     else revPartial m f c) = revPartial m f (c + 1) := by
  have hrc : bitrev m c < 2 ^ m := bitrev_lt m c
  have hinv : bitrev m (bitrev m c) = c := bitrev_bitrev m c hc
  funext t
  by_cases hcr : c < bitrev m c
  · rw [if_pos hcr]
    show swapF (revPartial m f c) c (bitrev m c) t = _
    unfold swapF
    by_cases ht1 : t = c
    · subst ht1
      rw [if_pos rfl]
      show revPartial m f t (bitrev m t) = revPartial m f (t + 1) t
      unfold revPartial
      rw [if_neg (by rw [hinv]; omega), if_pos (by omega)]
    · rw [if_neg ht1]
      by_cases ht2 : t = bitrev m c
      · rw [if_pos ht2]
        subst ht2
        show revPartial m f c c = revPartial m f (c + 1) (bitrev m c)
        unfold revPartial
        rw [if_neg (by omega), hinv, if_pos (by omega)]
      · rw [if_neg ht2]
        show revPartial m f c t = revPartial m f (c + 1) t
        unfold revPartial
        by_cases hold : t < 2 ^ m ∧ min t (bitrev m t) < c
        · rw [if_pos hold, if_pos ⟨hold.1, by omega⟩]
        · rw [if_neg hold, if_neg ?_]
          rintro ⟨h1, h2⟩
          have hmin : min t (bitrev m t) = c := by
            have : ¬ min t (bitrev m t) < c := fun hlt => hold ⟨h1, hlt⟩
            omega
          have hor : t = c ∨ bitrev m t = c := by omega
          rcases hor with h | h
          · exact ht1 h
          · exact ht2 (by rw [← h, bitrev_bitrev m t h1])
  · rw [if_neg hcr]
    show revPartial m f c t = revPartial m f (c + 1) t
    unfold revPartial
    by_cases hold : t < 2 ^ m ∧ min t (bitrev m t) < c
    · rw [if_pos hold, if_pos ⟨hold.1, by omega⟩]
    · rw [if_neg hold]
      by_cases hnew : t < 2 ^ m ∧ min t (bitrev m t) < c + 1
      · rw [if_pos hnew]
        have hmin : min t (bitrev m t) = c := by omega
        have hor : t = c ∨ bitrev m t = c := by omega
        have hbt : bitrev m t = t := by
          rcases hor with h | h
          · subst h
            omega
          · have ht : t = bitrev m c := by rw [← h, bitrev_bitrev m t hnew.1]
            omega
        rw [hbt]
      · rw [if_neg hnew]

lemma bitRevCopy_fold {R : Type} (m : ℕ) (f : ℕ → Cx R) :
    ∀ c, c ≤ 2 ^ m - 1 →
    (List.range c).foldl
      (fun (st : (ℕ → Cx R) × ℕ) i =>
        (if i < st.2 then swapF st.1 i st.2 else st.1, revStep st.2 (2 ^ m / 2)))
      (f, 0) = (revPartial m f c, bitrev m c) := by
  intro c
  induction c with
  | zero =>
      intro _
      have h1 : revPartial m f 0 = f := funext fun t => by simp [revPartial]
      simp [h1]
  | succ c ihc =>
      intro hc
      have hpos : 0 < (2 : ℕ) ^ m := pow_pos (by norm_num) m
      rw [List.range_succ, List.foldl_append, ihc (by omega), List.foldl_cons, List.foldl_nil]
      have h2 : revStep (bitrev m c) (2 ^ m / 2) = bitrev m (c + 1) :=
        revStep_bitrev m c (by omega)
      rw [h2, revPartial_step m c f (by omega)]

lemma bitRevCopy_apply {R : Type} (m : ℕ) (f : ℕ → Cx R) (t : ℕ) (ht : t < 2 ^ m) :
    bitRevCopy (2 ^ m) f t = f (bitrev m t) := by
  have hfold := bitRevCopy_fold m f (2 ^ m - 1) (le_refl _)
  unfold bitRevCopy
  rw [hfold]
  show revPartial m f (2 ^ m - 1) t = f (bitrev m t)
  unfold revPartial
  by_cases hcond : t < 2 ^ m ∧ min t (bitrev m t) < 2 ^ m - 1
  · rw [if_pos hcond]
  · rw [if_neg hcond]
    have hrt : bitrev m t < 2 ^ m := bitrev_lt m t
    have htl : t = 2 ^ m - 1 := by omega
    subst htl
    rw [bitrev_last m]

/-! ## The butterfly stage as a pointwise map

One stage's loops write each position of its groups exactly once (claim
C2); the fold therefore denotes the pointwise butterfly below, which the
next lemmas establish. -/

/-- What one stage writes at position `p` of its group (offset `p mod
2*step`): the `j`-half receives `a[j] + w^i * a[k]`, the `k`-half
`a[j] - w^i * a[k]`. -/
def butterflyAt {R : Type} [CommRing R] (wp : Cx R) (step : ℕ) (f : ℕ → Cx R) (p : ℕ) :
    Cx R :=
  if p % (2 * step) < step then f p + wp ^ (p % (2 * step)) * f (p + step)
  else f (p - step) - wp ^ (p % (2 * step) - step) * f p

lemma bfly_fst {R : Type} [CommRing R] (wp : Cx R) (st : (ℕ → Cx R) × Cx R)
    (j k p : ℕ) :
    (bfly wp st j k).1 p =
      if p = j then st.1 j + st.2 * st.1 k
      else if p = k then st.1 j - st.2 * st.1 k
      else st.1 p := rfl

lemma bfly_snd {R : Type} [CommRing R] (wp : Cx R) (st : (ℕ → Cx R) × Cx R)
    (j k : ℕ) : (bfly wp st j k).2 = st.2 * wp := rfl

lemma groupFold_snd {R : Type} [CommRing R] (wp : Cx R) (step g : ℕ) (f : ℕ → Cx R) :
    ∀ c, ((List.range c).foldl (fun st i => bfly wp st (g + i) (g + i + step)) (f, 1)).2 =
      wp ^ c := by
  intro c
  induction c with
  | zero => rw [List.range_zero, List.foldl_nil, pow_zero]
  | succ c ih =>
      rw [List.range_succ, List.foldl_append, List.foldl_cons, List.foldl_nil,
        bfly_snd, ih, pow_succ]

lemma groupFold_fst {R : Type} [CommRing R] (wp : Cx R) (step g : ℕ) (f : ℕ → Cx R) :
    ∀ c, c ≤ step → ∀ p,
    ((List.range c).foldl (fun st i => bfly wp st (g + i) (g + i + step)) (f, 1)).1 p =
      if g ≤ p ∧ p < g + c then f p + wp ^ (p - g) * f (p + step)
      else if g + step ≤ p ∧ p < g + step + c then f (p - step) - wp ^ (p - g - step) * f p
      else f p := by
  intro c
  induction c with
  | zero =>
      intro _ p
      rw [List.range_zero, List.foldl_nil]
      show f p = _
      rw [if_neg (by omega), if_neg (by omega)]
  | succ c ihc =>
      intro hc p
      rw [List.range_succ, List.foldl_append, List.foldl_cons, List.foldl_nil, bfly_fst,
        groupFold_snd wp step g f c, ihc (by omega) (g + c), ihc (by omega) (g + c + step),
        ihc (by omega) p]
      have hjv : (if g ≤ g + c ∧ g + c < g + c then f (g + c) + wp ^ (g + c - g) * f (g + c + step)
          else if g + step ≤ g + c ∧ g + c < g + step + c then
            f (g + c - step) - wp ^ (g + c - g - step) * f (g + c)
          else f (g + c)) = f (g + c) := by
        rw [if_neg (by omega), if_neg (by omega)]
      have hkv : (if g ≤ g + c + step ∧ g + c + step < g + c then
            f (g + c + step) + wp ^ (g + c + step - g) * f (g + c + step + step)
          else if g + step ≤ g + c + step ∧ g + c + step < g + step + c then
            f (g + c + step - step) - wp ^ (g + c + step - g - step) * f (g + c + step)
          else f (g + c + step)) = f (g + c + step) := by
        rw [if_neg (by omega), if_neg (by omega)]
      rw [hjv, hkv]
      by_cases hp1 : p = g + c
      · subst hp1
        rw [if_pos rfl, if_pos (by omega)]
        have e1 : g + c - g = c := by omega
        rw [e1]
      · rw [if_neg hp1]
        by_cases hp2 : p = g + c + step
        · subst hp2
          rw [if_pos rfl, if_neg (by omega), if_pos (by omega)]
          have e1 : g + c + step - step = g + c := by omega
          have e2 : g + c + step - g - step = c := by omega
          rw [e1, e2]
        · rw [if_neg hp2]
          by_cases hq1 : g ≤ p ∧ p < g + c
          · rw [if_pos hq1, if_pos (by omega)]
          · rw [if_neg hq1]
            by_cases hq2 : g + step ≤ p ∧ p < g + step + c
            · rw [if_pos hq2, if_neg (by omega), if_pos (by omega)]
            · rw [if_neg hq2, if_neg (by omega), if_neg (by omega)]

lemma groupFold_formula {R : Type} [CommRing R] (wp : Cx R) (step g : ℕ) (f : ℕ → Cx R)
    (p : ℕ) :
    groupFold wp step g f p =
      if g ≤ p ∧ p < g + step then f p + wp ^ (p - g) * f (p + step)
      else if g + step ≤ p ∧ p < g + step + step then
        f (p - step) - wp ^ (p - g - step) * f p
      else f p := by
  unfold groupFold
  exact groupFold_fst wp step g f step (le_refl step) p

lemma groupFold_outside {R : Type} [CommRing R] (wp : Cx R) (step g : ℕ) (f : ℕ → Cx R)
    (p : ℕ) (hp : p < g ∨ g + 2 * step ≤ p) :
    groupFold wp step g f p = f p := by
  rw [groupFold_formula]
  rw [if_neg (by omega), if_neg (by omega)]

lemma block_index_eq (s a b q : ℕ) (h1 : s * a ≤ q) (h2 : q < s * a + s)
    (h3 : s * b ≤ q) (h4 : q < s * b + s) : a = b := by
  have e1 : s * (a + 1) = s * a + s := by ring
  have e2 : s * (b + 1) = s * b + s := by ring
  have ha : a < b + 1 := Nat.lt_of_mul_lt_mul_left (a := s) (by omega)
  have hb : b < a + 1 := Nat.lt_of_mul_lt_mul_left (a := s) (by omega)
  omega

lemma butterflyAt_congr {R : Type} [CommRing R] (wp : Cx R) (step : ℕ) {f f2 : ℕ → Cx R}
    (p : ℕ) (h0 : f2 p = f p)
    (h1 : p % (2 * step) < step → f2 (p + step) = f (p + step))
    (h2 : ¬ p % (2 * step) < step → f2 (p - step) = f (p - step)) :
    butterflyAt wp step f2 p = butterflyAt wp step f p := by
  unfold butterflyAt
  by_cases hl : p % (2 * step) < step
  · rw [if_pos hl, if_pos hl, h0, h1 hl]
  · rw [if_neg hl, if_neg hl, h0, h2 hl]

lemma foldGroups_apply {R : Type} [CommRing R] (wp : Cx R) (step : ℕ) (hstep : 0 < step)
    (l : List ℕ) (hl : ∀ g ∈ l, 2 * step ∣ g) (hnd : l.Nodup) (f : ℕ → Cx R) (p : ℕ) :
    (l.foldl (fun acc g => groupFold wp step g acc) f) p =
      if p / (2 * step) * (2 * step) ∈ l then butterflyAt wp step f p else f p := by
  have hdm : 2 * step * (p / (2 * step)) + p % (2 * step) = p := Nat.div_add_mod p (2 * step)
  have hml : p % (2 * step) < 2 * step := Nat.mod_lt p (by omega)
  have hg0le : p / (2 * step) * (2 * step) ≤ p := Nat.div_mul_le_self p (2 * step)
  have hg0c : p / (2 * step) * (2 * step) = 2 * step * (p / (2 * step)) := by ring
  induction l generalizing f with
  | nil => simp
  | cons g l ih =>
      rw [List.foldl_cons]
      rcases hl g (List.mem_cons_self g l) with ⟨a, ha⟩
      by_cases hpg : p / (2 * step) * (2 * step) = g
      · have hg0l : p / (2 * step) * (2 * step) ∉ l := by
          rw [hpg]; exact (List.nodup_cons.mp hnd).1
        rw [ih (fun x hx => hl x (List.mem_cons_of_mem g hx)) (List.nodup_cons.mp hnd).2]
        rw [if_neg hg0l, if_pos (by rw [hpg]; exact List.mem_cons_self g l)]
        rw [groupFold_formula]
        unfold butterflyAt
        have hple : g ≤ p := by omega
        have hplt : p < g + 2 * step := by omega
        have hmod : p % (2 * step) = p - g := by omega
        by_cases hlow : p % (2 * step) < step
        · rw [if_pos (by omega), if_pos hlow, hmod]
        · rw [if_neg (by omega), if_pos (by omega), if_neg hlow, hmod]
      · have hgblock : ∀ q, p / (2 * step) * (2 * step) ≤ q →
            q < p / (2 * step) * (2 * step) + 2 * step →
            groupFold wp step g f q = f q := by
          intro q hq1 hq2
          apply groupFold_outside
          by_contra hcon
          push_neg at hcon
          have hble : g ≤ q := by omega
          have hblt : q < g + 2 * step := by omega
          have hidx : p / (2 * step) = a := block_index_eq (2 * step) (p / (2 * step)) a q
            (by omega) (by omega) (by omega) (by omega)
          apply hpg
          rw [ha, ← hidx]
          ring
        rw [ih (fun x hx => hl x (List.mem_cons_of_mem g hx)) (List.nodup_cons.mp hnd).2]
        have hmem : (p / (2 * step) * (2 * step) ∈ g :: l) ↔
            (p / (2 * step) * (2 * step) ∈ l) := by
          simp [List.mem_cons, hpg]
        by_cases hin : p / (2 * step) * (2 * step) ∈ l
        · rw [if_pos hin, if_pos (hmem.mpr hin)]
          refine butterflyAt_congr wp step p ?_ ?_ ?_
          · exact hgblock p (by omega) (by omega)
          · intro hlow
            exact hgblock (p + step) (by omega) (by omega)
          · intro hlow
            exact hgblock (p - step) (by omega) (by omega)
        · rw [if_neg hin, if_neg (fun hcc => hin (hmem.mp hcc))]
          exact hgblock p (by omega) (by omega)

lemma stageFold_apply {R : Type} [CommRing R] (wp : Cx R) {step n : ℕ} (hstep : 0 < step)
    (f : ℕ → Cx R) (p : ℕ) (hp : p < n) :
    stageFold wp step n f p = butterflyAt wp step f p := by
  unfold stageFold
  rw [foldGroups_apply wp step hstep (stepStarts n (2 * step))
    (fun g hg => Nat.dvd_of_mod_eq_zero (mem_stepStarts.mp hg).2)
    (List.Nodup.filter _ (List.nodup_range n)) f p]
  rw [if_pos (mem_stepStarts.mpr ⟨by
    have := Nat.div_mul_le_self p (2 * step); omega, Nat.mul_mod_left _ _⟩)]

/-! ## The stage loop as an iterated fold over stage indices -/

/-- The first `k` stages of the loop (`step = 1, 2, ..., 2^(k-1)`). -/
def stagesUpTo {R : Type} [CommRing R] (w : ℕ → R × R) (inverse : Bool) (n : ℕ) :
    ℕ → (ℕ → Cx R) → (ℕ → Cx R)
  | 0, f => f
  | k + 1, f => stageFold (stageW w inverse (2 ^ k)) (2 ^ k) n (stagesUpTo w inverse n k f)

lemma stagesFrom_glue {R : Type} [CommRing R] (w : ℕ → R × R) (inverse : Bool) (m : ℕ) :
    ∀ d j, j + d = m → ∀ f : ℕ → Cx R,
    stagesFrom w inverse (2 ^ m) (2 ^ j) (stagesUpTo w inverse (2 ^ m) j f) =
      stagesUpTo w inverse (2 ^ m) m f := by
  intro d
  induction d with
  | zero =>
      intro j hj f
      have hjm : j = m := by omega
      subst hjm
      rw [stagesFrom]
      rw [dif_neg (by simp)]
  | succ d ih =>
      intro j hj f
      have hjm : j < m := by omega
      rw [stagesFrom]
      rw [dif_pos ⟨pow_pos (by norm_num) j, Nat.pow_lt_pow_right (by norm_num) hjm⟩]
      have e1 : 2 * 2 ^ j = 2 ^ (j + 1) := by ring
      rw [e1]
      exact ih (j + 1) (by omega) f

lemma stagesFrom_eq_upTo {R : Type} [CommRing R] (w : ℕ → R × R) (inverse : Bool) (m : ℕ)
    (f : ℕ → Cx R) :
    stagesFrom w inverse (2 ^ m) 1 f = stagesUpTo w inverse (2 ^ m) m f := by
  have h := stagesFrom_glue w inverse m m 0 (by omega) f
  rw [pow_zero] at h
  exact h

/-! ## Coherent rotation families

The per-stage rotation `exp(sign*i*pi/step)` satisfies, in exact
arithmetic, `w(2s)^2 = w(s)` and `w(1) = -1`; everything the round-trip
needs follows from these two identities plus unitality. -/

/-- The two identities a family of stage rotations satisfies. -/
structure IsRootFamily {R : Type} [CommRing R] (v : ℕ → Cx R) : Prop where
  coh : ∀ s, 0 < s → v (2 * s) * v (2 * s) = v s
  base : v 1 = -1

lemma IsRootFamily.pow_self {R : Type} [CommRing R] {v : ℕ → Cx R} (hv : IsRootFamily v) :
    ∀ k, v (2 ^ k) ^ (2 ^ k) = -1 := by
  intro k
  induction k with
  | zero => simpa using hv.base
  | succ k ih =>
      have e1 : (2 : ℕ) ^ (k + 1) = 2 * 2 ^ k := by ring
      rw [e1, pow_mul, pow_two, hv.coh (2 ^ k) (pow_pos (by norm_num) k), ih]

/-- The primitive `L`-th root a stage of block size `L` builds on:
`Om v L = v (L/2)`, i.e. `exp(sign*2*pi*i/L)`. -/
def Om {R : Type} [CommRing R] (v : ℕ → Cx R) (L : ℕ) : Cx R :=
  if L ≤ 1 then 1 else v (L / 2)

lemma Om_one {R : Type} [CommRing R] (v : ℕ → Cx R) : Om v 1 = 1 := rfl

lemma Om_two_pow_succ {R : Type} [CommRing R] (v : ℕ → Cx R) (k : ℕ) :
    Om v (2 ^ (k + 1)) = v (2 ^ k) := by
  unfold Om
  have h1 : ¬ (2 : ℕ) ^ (k + 1) ≤ 1 := by
    have := pow_pos (show (0:ℕ) < 2 by norm_num) k
    have e1 : (2 : ℕ) ^ (k + 1) = 2 * 2 ^ k := by ring
    omega
  rw [if_neg h1]
  congr 1
  have e1 : (2 : ℕ) ^ (k + 1) = 2 ^ k * 2 := by ring
  rw [e1]
  exact Nat.mul_div_cancel _ (by norm_num)

lemma Om_sq {R : Type} [CommRing R] {v : ℕ → Cx R} (hv : IsRootFamily v) (k : ℕ) :
    Om v (2 ^ (k + 1)) ^ 2 = Om v (2 ^ k) := by
  cases k with
  | zero =>
      rw [Om_two_pow_succ, pow_zero, Om_one, pow_two, hv.base]
      ring
  | succ k =>
      rw [Om_two_pow_succ, Om_two_pow_succ, pow_two]
      have e1 : (2 : ℕ) ^ (k + 1) = 2 * 2 ^ k := by ring
      rw [e1]
      exact hv.coh (2 ^ k) (pow_pos (by norm_num) k)

lemma Om_pow_block {R : Type} [CommRing R] {v : ℕ → Cx R} (hv : IsRootFamily v) (k : ℕ) :
    Om v (2 ^ k) ^ (2 ^ k) = 1 := by
  cases k with
  | zero => rw [pow_zero, Om_one, pow_one]
  | succ k =>
      rw [Om_two_pow_succ]
      have e1 : (2 : ℕ) ^ (k + 1) = 2 ^ k * 2 := by ring
      rw [e1, pow_mul, hv.pow_self k]
      ring

lemma Om_pow_half {R : Type} [CommRing R] {v : ℕ → Cx R} (hv : IsRootFamily v) (k : ℕ) :
    Om v (2 ^ (k + 1)) ^ (2 ^ k) = -1 := by
  rw [Om_two_pow_succ]
  exact hv.pow_self k

/-! ## The discrete Fourier transform and even/odd splitting -/

/-- The DFT of length `N` with rotation `W`. -/
def dftFun {R : Type} [CommRing R] (N : ℕ) (W : Cx R) (x : ℕ → Cx R) : ℕ → Cx R :=
  fun r => ∑ t ∈ Finset.range N, W ^ (r * t) * x t

lemma sum_range_even_odd {M : Type} [AddCommMonoid M] (L : ℕ) (f : ℕ → M) :
    ∑ t ∈ Finset.range (2 * L), f t =
      (∑ a ∈ Finset.range L, f (2 * a)) + ∑ a ∈ Finset.range L, f (2 * a + 1) := by
  induction L with
  | zero => simp
  | succ L ih =>
      have e1 : 2 * (L + 1) = (2 * L + 1) + 1 := by ring
      rw [e1, Finset.sum_range_succ, Finset.sum_range_succ, Finset.sum_range_succ,
        Finset.sum_range_succ, ih]
      abel

lemma bitrev_two_mul (w q : ℕ) : bitrev (w + 1) (2 * q) = bitrev w q := by
  show 2 * q % 2 * 2 ^ w + bitrev w (2 * q / 2) = _
  rw [Nat.mul_mod_right, Nat.mul_div_cancel_left q (by norm_num)]
  ring

lemma bitrev_two_mul_add_one (w q : ℕ) :
    bitrev (w + 1) (2 * q + 1) = 2 ^ w + bitrev w q := by
  show (2 * q + 1) % 2 * 2 ^ w + bitrev w ((2 * q + 1) / 2) = _
  have h1 : (2 * q + 1) % 2 = 1 := by omega
  have h2 : (2 * q + 1) / 2 = q := by omega
  rw [h1, h2]
  ring

lemma dft_split_low {R : Type} [CommRing R] {v : ℕ → Cx R} (hv : IsRootFamily v)
    (x : ℕ → Cx R) (m k : ℕ) (hk : k + 1 ≤ m) (q r : ℕ) :
    ∑ t ∈ Finset.range (2 ^ (k + 1)),
        Om v (2 ^ (k + 1)) ^ (r * t) * x (t * 2 ^ (m - (k + 1)) + bitrev (m - (k + 1)) q) =
      (∑ t ∈ Finset.range (2 ^ k),
        Om v (2 ^ k) ^ (r * t) * x (t * 2 ^ (m - k) + bitrev (m - k) (2 * q))) +
      v (2 ^ k) ^ r *
        ∑ t ∈ Finset.range (2 ^ k),
          Om v (2 ^ k) ^ (r * t) * x (t * 2 ^ (m - k) + bitrev (m - k) (2 * q + 1)) := by
  have hm1 : m - (k + 1) + 1 = m - k := by omega
  have hp2 : (2 : ℕ) ^ (m - k) = 2 * 2 ^ (m - (k + 1)) := by
    rw [← hm1, pow_succ]; ring
  have e2L : Finset.range (2 ^ (k + 1)) = Finset.range (2 * 2 ^ k) := by
    congr 1; ring
  rw [e2L, sum_range_even_odd]
  congr 1
  · apply Finset.sum_congr rfl
    intro a _
    have hexp : r * (2 * a) = 2 * (r * a) := by ring
    have hb : bitrev (m - k) (2 * q) = bitrev (m - (k + 1)) q := by
      rw [← hm1, bitrev_two_mul]
    have hidx : 2 * a * 2 ^ (m - (k + 1)) + bitrev (m - (k + 1)) q =
        a * 2 ^ (m - k) + bitrev (m - (k + 1)) q := by
      rw [hp2]; ring_nf
    rw [hexp, pow_mul, Om_sq hv k, hb, hidx]
  · rw [Finset.mul_sum]
    apply Finset.sum_congr rfl
    intro a _
    have hexp : r * (2 * a + 1) = 2 * (r * a) + r := by ring
    have hb : bitrev (m - k) (2 * q + 1) = 2 ^ (m - (k + 1)) + bitrev (m - (k + 1)) q := by
      rw [← hm1, bitrev_two_mul_add_one]
    have hidx : (2 * a + 1) * 2 ^ (m - (k + 1)) + bitrev (m - (k + 1)) q =
        a * 2 ^ (m - k) + (2 ^ (m - (k + 1)) + bitrev (m - (k + 1)) q) := by
      rw [hp2]; ring
    rw [hexp, pow_add, pow_mul, Om_sq hv k, Om_two_pow_succ, hb, hidx]
    ring

lemma dft_split_high {R : Type} [CommRing R] {v : ℕ → Cx R} (hv : IsRootFamily v)
    (x : ℕ → Cx R) (m k : ℕ) (hk : k + 1 ≤ m) (q r2 : ℕ) :
    ∑ t ∈ Finset.range (2 ^ (k + 1)),
        Om v (2 ^ (k + 1)) ^ ((2 ^ k + r2) * t) *
          x (t * 2 ^ (m - (k + 1)) + bitrev (m - (k + 1)) q) =
      (∑ t ∈ Finset.range (2 ^ k),
        Om v (2 ^ k) ^ (r2 * t) * x (t * 2 ^ (m - k) + bitrev (m - k) (2 * q))) -
      v (2 ^ k) ^ r2 *
        ∑ t ∈ Finset.range (2 ^ k),
          Om v (2 ^ k) ^ (r2 * t) * x (t * 2 ^ (m - k) + bitrev (m - k) (2 * q + 1)) := by
  have hm1 : m - (k + 1) + 1 = m - k := by omega
  have hp2 : (2 : ℕ) ^ (m - k) = 2 * 2 ^ (m - (k + 1)) := by
    rw [← hm1, pow_succ]; ring
  have e2L : Finset.range (2 ^ (k + 1)) = Finset.range (2 * 2 ^ k) := by
    congr 1; ring
  have hOme : ∀ a : ℕ, Om v (2 ^ (k + 1)) ^ ((2 ^ k + r2) * (2 * a)) =
      Om v (2 ^ k) ^ (r2 * a) := by
    intro a
    have he : (2 ^ k + r2) * (2 * a) = 2 * (2 ^ k * a + r2 * a) := by ring
    rw [he, pow_mul, Om_sq hv k, pow_add, pow_mul, Om_pow_block hv, one_pow, one_mul]
  have hOmo : ∀ a : ℕ, Om v (2 ^ (k + 1)) ^ ((2 ^ k + r2) * (2 * a + 1)) =
      Om v (2 ^ k) ^ (r2 * a) * -(v (2 ^ k) ^ r2) := by
    intro a
    have he : (2 ^ k + r2) * (2 * a + 1) = 2 * (2 ^ k * a + r2 * a) + (2 ^ k + r2) := by
      ring
    rw [he, pow_add, pow_mul, Om_sq hv k]
    rw [pow_add, pow_mul, Om_pow_block hv, one_pow, one_mul]
    rw [pow_add, Om_pow_half hv, Om_two_pow_succ]
    ring
  rw [e2L, sum_range_even_odd, sub_eq_add_neg]
  congr 1
  · apply Finset.sum_congr rfl
    intro a _
    have hb : bitrev (m - k) (2 * q) = bitrev (m - (k + 1)) q := by
      rw [← hm1, bitrev_two_mul]
    have hidx : 2 * a * 2 ^ (m - (k + 1)) + bitrev (m - (k + 1)) q =
        a * 2 ^ (m - k) + bitrev (m - (k + 1)) q := by
      rw [hp2]; ring_nf
    rw [hOme a, hb, hidx]
  · rw [Finset.mul_sum, ← Finset.sum_neg_distrib]
    apply Finset.sum_congr rfl
    intro a _
    have hb : bitrev (m - k) (2 * q + 1) = 2 ^ (m - (k + 1)) + bitrev (m - (k + 1)) q := by
      rw [← hm1, bitrev_two_mul_add_one]
    have hidx : (2 * a + 1) * 2 ^ (m - (k + 1)) + bitrev (m - (k + 1)) q =
        a * 2 ^ (m - k) + (2 ^ (m - (k + 1)) + bitrev (m - (k + 1)) q) := by
      rw [hp2]; ring
    rw [hOmo a, hb, hidx]
    ring

/-- The classic invariant of the iterative decimation-in-time FFT: after
the first `k` stages, each block of size `2^k` holds the `2^k`-point DFT
of the input subsampled at stride `2^(m-k)` with the bit-reversed block
offset. -/
lemma stages_invariant {R : Type} [CommRing R] (w : ℕ → R × R) (inverse : Bool)
    (v : ℕ → Cx R) (hv : IsRootFamily v) (hsw : ∀ s, stageW w inverse s = v s)
    (m : ℕ) (x a0 : ℕ → Cx R) (ha : ∀ q, q < 2 ^ m → a0 q = x (bitrev m q)) :
    ∀ k, k ≤ m → ∀ q r, q < 2 ^ (m - k) → r < 2 ^ k →
      stagesUpTo w inverse (2 ^ m) k a0 (q * 2 ^ k + r) =
        ∑ t ∈ Finset.range (2 ^ k),
          Om v (2 ^ k) ^ (r * t) * x (t * 2 ^ (m - k) + bitrev (m - k) q) := by
  intro k
  induction k with
  | zero =>
      intro _ q r hq hr
      have hr0 : r = 0 := by omega
      subst hr0
      show a0 (q * 2 ^ 0 + 0) = _
      simp only [pow_zero, Nat.sub_zero, Finset.sum_range_one, Nat.zero_mul, Nat.mul_one,
        Nat.add_zero, Nat.zero_add, Om_one, one_pow, one_mul]
      exact ha q (by simpa using hq)
  | succ k ihk =>
      intro hk1 q r hq hr
      have hk : k ≤ m := by omega
      have hppos : (0 : ℕ) < 2 ^ k := pow_pos (by norm_num) k
      have h2s : 2 * 2 ^ k = 2 ^ (k + 1) := by ring
      have hmk : (2 : ℕ) ^ (m - k) = 2 * 2 ^ (m - (k + 1)) := by
        rw [show m - k = (m - (k + 1)) + 1 from by omega, pow_succ]
        ring
      have hp : q * 2 ^ (k + 1) + r < 2 ^ m := by
        have h1 : (q + 1) * 2 ^ (k + 1) = q * 2 ^ (k + 1) + 2 ^ (k + 1) := by ring
        have h2 : (q + 1) * 2 ^ (k + 1) ≤ 2 ^ (m - (k + 1)) * 2 ^ (k + 1) :=
          Nat.mul_le_mul_right _ (by omega)
        have h3 : 2 ^ (m - (k + 1)) * (2 : ℕ) ^ (k + 1) = 2 ^ m := by
          rw [← pow_add]
          congr 1
          omega
        omega
      have hq2 : 2 * q < 2 ^ (m - k) := by omega
      have hq21 : 2 * q + 1 < 2 ^ (m - k) := by omega
      show stageFold (stageW w inverse (2 ^ k)) (2 ^ k) (2 ^ m)
        (stagesUpTo w inverse (2 ^ m) k a0) (q * 2 ^ (k + 1) + r) = _
      rw [@stageFold_apply R _ (stageW w inverse (2 ^ k)) (2 ^ k) (2 ^ m) hppos
        (stagesUpTo w inverse (2 ^ m) k a0) (q * 2 ^ (k + 1) + r) hp]
      unfold butterflyAt
      rw [hsw (2 ^ k)]
      have hmod : (q * 2 ^ (k + 1) + r) % (2 * 2 ^ k) = r := by
        rw [h2s, mul_comm q (2 ^ (k + 1)), Nat.mul_add_mod, Nat.mod_eq_of_lt hr]
      rw [hmod]
      by_cases hlow : r < 2 ^ k
      · rw [if_pos hlow]
        have hi2 : q * 2 ^ (k + 1) + r + 2 ^ k = (2 * q + 1) * 2 ^ k + r := by
          rw [← h2s]; ring
        have hi1 : q * 2 ^ (k + 1) + r = 2 * q * 2 ^ k + r := by
          rw [← h2s]; ring
        rw [hi2, hi1]
        rw [ihk hk (2 * q) r hq2 hlow, ihk hk (2 * q + 1) r hq21 hlow]
        rw [dft_split_low hv x m k hk1 q r]
      · rw [if_neg hlow]
        obtain ⟨r2, rfl⟩ : ∃ r2, r = 2 ^ k + r2 := ⟨r - 2 ^ k, by omega⟩
        have hr2 : r2 < 2 ^ k := by
          have h1 : (2 : ℕ) ^ (k + 1) = 2 * 2 ^ k := by ring
          omega
        have hiA : q * 2 ^ (k + 1) + (2 ^ k + r2) = 2 * q * 2 ^ k + r2 + 2 ^ k := by
          rw [← h2s]; ring
        have hsub : q * 2 ^ (k + 1) + (2 ^ k + r2) - 2 ^ k = 2 * q * 2 ^ k + r2 := by
          omega
        have hiB : q * 2 ^ (k + 1) + (2 ^ k + r2) = (2 * q + 1) * 2 ^ k + r2 := by
          rw [← h2s]; ring
        have hexp2 : 2 ^ k + r2 - 2 ^ k = r2 := by omega
        rw [hsub, hiB, hexp2]
        rw [ihk hk (2 * q) r2 hq2 hr2, ihk hk (2 * q + 1) r2 hq21 hr2]
        rw [dft_split_high hv x m k hk1 q r2]

/-! ## Inversion: the inverse-sign DFT undoes the forward DFT up to the
factor `N`, by the telescoping product `sum z^t = prod (1 + z^(2^c))`
and the half-order root being `-1`. -/

lemma geom_sum_two_pow {M : Type} [CommRing M] (z : M) (m : ℕ) :
    ∑ t ∈ Finset.range (2 ^ m), z ^ t = ∏ c ∈ Finset.range m, (1 + z ^ 2 ^ c) := by
  induction m generalizing z with
  | zero => simp
  | succ m ih =>
      have e2L : Finset.range ((2 : ℕ) ^ (m + 1)) = Finset.range (2 * 2 ^ m) := by
        congr 1; ring
      rw [e2L, sum_range_even_odd]
      have he : ∀ a : ℕ, z ^ (2 * a) = (z ^ 2) ^ a := fun a => by rw [← pow_mul]
      have ho : ∀ a : ℕ, z ^ (2 * a + 1) = z * (z ^ 2) ^ a := fun a => by
        rw [pow_add, pow_mul, pow_one, mul_comm]
      rw [Finset.sum_congr rfl fun a _ => he a, Finset.sum_congr rfl fun a _ => ho a,
        ← Finset.mul_sum, ih (z ^ 2), Finset.prod_range_succ']
      have hpow : ∀ c : ℕ, (z ^ 2) ^ 2 ^ c = z ^ 2 ^ (c + 1) := fun c => by
        rw [← pow_mul]
        congr 1
        rw [pow_succ]
        ring
      rw [Finset.prod_congr rfl fun c _ => by rw [hpow c]]
      rw [pow_zero, pow_one]
      ring

lemma mul_eq_one_unique {M : Type} [CommMonoid M] {a b c : M}
    (h1 : a * b = 1) (h2 : a * c = 1) : b = c := by
  calc b = b * (a * c) := by rw [h2, mul_one]
    _ = (a * b) * c := by rw [← mul_assoc, mul_comm b a]
    _ = c := by rw [h1, one_mul]

lemma geom_sum_root_zero {R : Type} [CommRing R] {vf : ℕ → Cx R} (hvf : IsRootFamily vf)
    (m : ℕ) (hm : 1 ≤ m) (d : ℕ) (hd0 : 0 < d) (hdn : d ≠ 2 ^ m) (hdb : d < 2 ^ (m + 1)) :
    ∑ t ∈ Finset.range (2 ^ m), (Om vf (2 ^ m) ^ d) ^ t = 0 := by
  rw [geom_sum_two_pow]
  obtain ⟨c, u, hu, hdu⟩ := Nat.exists_eq_pow_mul_and_not_dvd (by omega : d ≠ 0) 2 (by norm_num)
  have hupos : 0 < u := by
    rcases Nat.eq_zero_or_pos u with h | h
    · rw [h, Nat.mul_zero] at hdu; omega
    · exact h
  have huodd : u % 2 = 1 := by omega
  have hcm : c < m := by
    by_contra hge
    push_neg at hge
    have h1 : (2 : ℕ) ^ m ≤ 2 ^ c := Nat.pow_le_pow_right (by norm_num) hge
    rcases Nat.lt_or_ge u 2 with hu1 | hu2
    · have hu1e : u = 1 := by omega
      rw [hu1e, Nat.mul_one] at hdu
      have hce : c = m := by
        by_contra hne
        have : m + 1 ≤ c := by omega
        have : (2 : ℕ) ^ (m + 1) ≤ 2 ^ c := Nat.pow_le_pow_right (by norm_num) this
        omega
      rw [hce] at hdu
      exact hdn hdu
    · have hu3 : 3 ≤ u := by omega
      have h2 : 2 ^ c * 3 ≤ 2 ^ c * u := Nat.mul_le_mul_left _ hu3
      have h3 : (2 : ℕ) ^ (m + 1) = 2 ^ m * 2 := by ring
      have h4 : (2 : ℕ) ^ m * 2 ≤ 2 ^ c * 2 := Nat.mul_le_mul_right _ h1
      omega
  apply Finset.prod_eq_zero (Finset.mem_range.mpr (show m - 1 - c < m by omega))
  have hfac : (Om vf (2 ^ m) ^ d) ^ 2 ^ (m - 1 - c) = -1 := by
    rw [← pow_mul]
    have he : d * 2 ^ (m - 1 - c) = 2 ^ (m - 1) * u := by
      rw [hdu]
      rw [show (2 : ℕ) ^ c * u * 2 ^ (m - 1 - c) = 2 ^ c * 2 ^ (m - 1 - c) * u from by ring]
      rw [← pow_add]
      congr 2
      omega
    rw [he, pow_mul]
    have hhalf : Om vf (2 ^ m) ^ 2 ^ (m - 1) = -1 := by
      have hm1 : m = (m - 1) + 1 := by omega
      rw [hm1]
      exact Om_pow_half hvf (m - 1)
    rw [hhalf]
    exact Odd.neg_one_pow (Nat.odd_iff.mpr huodd)
  rw [hfac]
  ring

lemma dft_roundtrip {R : Type} [CommRing R] {vf vb : ℕ → Cx R}
    (hvf : IsRootFamily vf) (hinv : ∀ s, vf s * vb s = 1) (m : ℕ) (x : ℕ → Cx R)
    (j : ℕ) (hj : j < 2 ^ m) :
    dftFun (2 ^ m) (Om vb (2 ^ m)) (dftFun (2 ^ m) (Om vf (2 ^ m)) x) j =
      (2 ^ m : ℕ) • x j := by
  have hOminv : Om vf (2 ^ m) * Om vb (2 ^ m) = 1 := by
    cases m with
    | zero => rw [pow_zero, Om_one, Om_one, one_mul]
    | succ k => rw [Om_two_pow_succ, Om_two_pow_succ]; exact hinv (2 ^ k)
  have hWfN : Om vf (2 ^ m) ^ 2 ^ m = 1 := Om_pow_block hvf m
  have hWbj : Om vb (2 ^ m) ^ j = Om vf (2 ^ m) ^ (2 ^ m - j) := by
    refine mul_eq_one_unique (a := Om vf (2 ^ m) ^ j) ?_ ?_
    · rw [← mul_pow, hOminv, one_pow]
    · rw [← pow_add, show j + (2 ^ m - j) = 2 ^ m from by omega]
      exact hWfN
  show (∑ t ∈ Finset.range (2 ^ m), Om vb (2 ^ m) ^ (j * t) *
      dftFun (2 ^ m) (Om vf (2 ^ m)) x t) = _
  have hsw : ∀ t, Om vb (2 ^ m) ^ (j * t) * dftFun (2 ^ m) (Om vf (2 ^ m)) x t =
      ∑ i ∈ Finset.range (2 ^ m), (Om vf (2 ^ m) ^ (i + (2 ^ m - j))) ^ t * x i := by
    intro t
    show Om vb (2 ^ m) ^ (j * t) *
      (∑ i ∈ Finset.range (2 ^ m), Om vf (2 ^ m) ^ (t * i) * x i) = _
    rw [Finset.mul_sum]
    apply Finset.sum_congr rfl
    intro i _
    calc Om vb (2 ^ m) ^ (j * t) * (Om vf (2 ^ m) ^ (t * i) * x i)
        = (Om vb (2 ^ m) ^ j) ^ t * ((Om vf (2 ^ m) ^ i) ^ t * x i) := by
          rw [pow_mul, show t * i = i * t from by ring, pow_mul]
      _ = (Om vf (2 ^ m) ^ (2 ^ m - j)) ^ t * ((Om vf (2 ^ m) ^ i) ^ t * x i) := by
          rw [hWbj]
      _ = (Om vf (2 ^ m) ^ (i + (2 ^ m - j))) ^ t * x i := by
          rw [← mul_assoc, ← mul_pow, ← pow_add,
            show 2 ^ m - j + i = i + (2 ^ m - j) from by omega]
  rw [Finset.sum_congr rfl fun t _ => hsw t, Finset.sum_comm]
  rw [Finset.sum_congr rfl fun i _ => (Finset.sum_mul _ _ _).symm]
  have hzero : ∀ i ∈ Finset.range (2 ^ m), i ≠ j →
      (∑ t ∈ Finset.range (2 ^ m), (Om vf (2 ^ m) ^ (i + (2 ^ m - j))) ^ t) * x i = 0 := by
    intro i hi hne
    rw [Finset.mem_range] at hi
    have hm1 : 1 ≤ m := by
      by_contra h0
      have hm0 : m = 0 := by omega
      subst hm0
      omega
    have hd0 : 0 < i + (2 ^ m - j) := by omega
    have hdn : i + (2 ^ m - j) ≠ 2 ^ m := by omega
    have hdb : i + (2 ^ m - j) < 2 ^ (m + 1) := by
      have h2 : (2 : ℕ) ^ (m + 1) = 2 * 2 ^ m := by ring
      omega
    rw [geom_sum_root_zero hvf m hm1 _ hd0 hdn hdb, zero_mul]
  rw [Finset.sum_eq_single_of_mem j (Finset.mem_range.mpr hj) hzero]
  rw [show j + (2 ^ m - j) = 2 ^ m from by omega, hWfN]
  rw [Finset.sum_congr rfl fun t _ => one_pow t]
  rw [Finset.sum_const, Finset.card_range, smul_mul_assoc, one_mul]

/-- The stage loop applied to the bit-reversal copy computes the DFT with
rotation `Om v (2^m)` at every in-range index. -/
lemma fftStages_eq_dft {R : Type} [CommRing R] (w : ℕ → R × R) (inverse : Bool)
    (v : ℕ → Cx R) (hv : IsRootFamily v) (hsw : ∀ s, stageW w inverse s = v s)
    (m : ℕ) (x : ℕ → Cx R) (r : ℕ) (hr : r < 2 ^ m) :
    stagesFrom w inverse (2 ^ m) 1 (bitRevCopy (2 ^ m) x) r =
      dftFun (2 ^ m) (Om v (2 ^ m)) x r := by
  rw [stagesFrom_eq_upTo]
  have ha : ∀ q, q < 2 ^ m → bitRevCopy (2 ^ m) x q = x (bitrev m q) :=
    fun q hq => bitRevCopy_apply m x q hq
  have h := stages_invariant w inverse v hv hsw m x (bitRevCopy (2 ^ m) x) ha m le_rfl
    0 r (by simp [Nat.sub_self]) hr
  rw [Nat.zero_mul, Nat.zero_add] at h
  rw [h]
  apply Finset.sum_congr rfl
  intro t _
  have e1 : t * 2 ^ (m - m) + bitrev (m - m) 0 = t := by
    rw [Nat.sub_self, pow_zero, Nat.mul_one]
    show t + 0 = t
    omega
  rw [e1]

lemma Cx.nsmul_eq {R : Type} [CommRing R] (n : ℕ) (z : Cx R) :
    n • z = ⟨(n : R) * z.re, (n : R) * z.im⟩ := by
  induction n with
  | zero =>
      rw [zero_nsmul]
      apply Cx.ext <;> simp
  | succ n ih =>
      rw [succ_nsmul, ih]
      apply Cx.ext <;> simp <;> ring

/-- Running the core with `inverse = true` on (anything agreeing in range
with) the forward core's output restores the input pointwise, provided
the rotation family satisfies the root identities with both signs and
the two signs multiply to `1`. -/
lemma fftCore_roundtrip {R : Type} [Field R] (w : ℕ → R × R)
    (hvf : IsRootFamily (stageW w false)) (hvb : IsRootFamily (stageW w true))
    (hinv : ∀ s, stageW w false s * stageW w true s = 1)
    (m : ℕ) (hn : ((2 ^ m : ℕ) : R) ≠ 0) (x g : ℕ → Cx R)
    (hg : ∀ t, t < 2 ^ m → g t = fftCore w false (2 ^ m) x t)
    (j : ℕ) (hj : j < 2 ^ m) :
    fftCore w true (2 ^ m) g j = x j := by
  have hfwd : ∀ t, t < 2 ^ m → fftCore w false (2 ^ m) x t =
      dftFun (2 ^ m) (Om (stageW w false) (2 ^ m)) x t := by
    intro t ht
    show stagesFrom w false (2 ^ m) 1 (bitRevCopy (2 ^ m) x) t = _
    exact fftStages_eq_dft w false (stageW w false) hvf (fun _ => rfl) m x t ht
  show Cx.scale (1 / ((2 ^ m : ℕ) : R))
      (stagesFrom w true (2 ^ m) 1 (bitRevCopy (2 ^ m) g) j) = x j
  rw [fftStages_eq_dft w true (stageW w true) hvb (fun _ => rfl) m g j hj]
  have hgd : dftFun (2 ^ m) (Om (stageW w true) (2 ^ m)) g j =
      dftFun (2 ^ m) (Om (stageW w true) (2 ^ m))
        (dftFun (2 ^ m) (Om (stageW w false) (2 ^ m)) x) j := by
    apply Finset.sum_congr rfl
    intro t ht
    rw [Finset.mem_range] at ht
    rw [hg t ht, hfwd t ht]
  rw [hgd, dft_roundtrip hvf hinv m x j hj, Cx.nsmul_eq]
  apply Cx.ext <;> show 1 / ((2 ^ m : ℕ) : R) * (((2 ^ m : ℕ) : R) * _) = _ <;>
    rw [one_div, inv_mul_cancel_left₀ hn]

lemma getD_map_range {α : Type} (d : α) (f : ℕ → α) (n i : ℕ) (hi : i < n) :
    ((List.range n).map f).getD i d = f i := by
  simp [List.getD_eq_getElem?_getD, List.getElem?_map, List.getElem?_range, hi]

/-- `ifft_radix2` after `fft_radix2` restores both buffers exactly, in
exact arithmetic, for any rotation family with the root identities. -/
lemma fft_roundtrip_list {R : Type} [Field R] (w : ℕ → R × R)
    (hvf : IsRootFamily (stageW w false)) (hvb : IsRootFamily (stageW w true))
    (hinv : ∀ s, stageW w false s * stageW w true s = 1)
    (m : ℕ) (hn : ((2 ^ m : ℕ) : R) ≠ 0) (x : List R) (hx : x.length = 2 ^ m)
    (i : ℕ) (hi : i < x.length) :
    ((ifft_radix2 w (fft_radix2 w x (List.replicate x.length 0) false).1
        (fft_radix2 w x (List.replicate x.length 0) false).2).1.getD i 0 = x.getD i 0) ∧
    ((ifft_radix2 w (fft_radix2 w x (List.replicate x.length 0) false).1
        (fft_radix2 w x (List.replicate x.length 0) false).2).2.getD i 0 = 0) := by
  have hlen1 : (fft_radix2 w x (List.replicate x.length 0) false).1.length = x.length := by
    show ((List.range x.length).map _).length = _
    rw [List.length_map, List.length_range]
  have hg : ∀ t, t < 2 ^ m →
      toCx (fft_radix2 w x (List.replicate x.length 0) false).1
        (fft_radix2 w x (List.replicate x.length 0) false).2 t =
      fftCore w false (2 ^ m) (toCx x (List.replicate x.length 0)) t := by
    intro t ht
    apply Cx.ext
    · show ((List.range x.length).map
        (fun u => (fftCore w false x.length (toCx x (List.replicate x.length 0)) u).re)).getD
          t 0 = _
      rw [getD_map_range 0 _ x.length t (by omega), hx]
    · show ((List.range x.length).map
        (fun u => (fftCore w false x.length (toCx x (List.replicate x.length 0)) u).im)).getD
          t 0 = _
      rw [getD_map_range 0 _ x.length t (by omega), hx]
  have hcore : fftCore w true (2 ^ m)
      (toCx (fft_radix2 w x (List.replicate x.length 0) false).1
        (fft_radix2 w x (List.replicate x.length 0) false).2) i =
      toCx x (List.replicate x.length 0) i :=
    fftCore_roundtrip w hvf hvb hinv m hn _ _ hg i (by omega)
  have hL : (fft_radix2 w x (List.replicate x.length 0) false).1.length = 2 ^ m := by
    rw [hlen1, hx]
  constructor
  · show ((List.range (fft_radix2 w x (List.replicate x.length 0) false).1.length).map
      (fun t => (fftCore w true (fft_radix2 w x (List.replicate x.length 0) false).1.length
        (toCx (fft_radix2 w x (List.replicate x.length 0) false).1
          (fft_radix2 w x (List.replicate x.length 0) false).2) t).re)).getD i 0 = _
    rw [hL, getD_map_range 0 _ (2 ^ m) i (by omega), hcore]
    show x.getD i 0 = x.getD i 0
    rfl
  · show ((List.range (fft_radix2 w x (List.replicate x.length 0) false).1.length).map
      (fun t => (fftCore w true (fft_radix2 w x (List.replicate x.length 0) false).1.length
        (toCx (fft_radix2 w x (List.replicate x.length 0) false).1
          (fft_radix2 w x (List.replicate x.length 0) false).2) t).im)).getD i 0 = _
    rw [hL, getD_map_range 0 _ (2 ^ m) i (by omega), hcore]
    show (List.replicate x.length (0 : R)).getD i 0 = 0
    simp [List.getD_eq_getElem?_getD, List.getElem?_replicate, hi]

/-- The forward trigonometric family `(cos(pi/s), sin(pi/s))` satisfies
the root identities. -/
lemma trigRoot_forward :
    IsRootFamily
      (stageW (fun s : ℕ => (Real.cos (Real.pi / s), Real.sin (Real.pi / s))) false) := by
  constructor
  · intro s hs
    have h2 : 2 * (Real.pi / ((2 * s : ℕ) : ℝ)) = Real.pi / (s : ℝ) := by
      have hs0 : ((s : ℕ) : ℝ) ≠ 0 := Nat.cast_ne_zero.mpr (by omega)
      push_cast
      field_simp
      ring
    apply Cx.ext
    · show Real.cos (Real.pi / ((2 * s : ℕ) : ℝ)) * Real.cos (Real.pi / ((2 * s : ℕ) : ℝ)) -
        Real.sin (Real.pi / ((2 * s : ℕ) : ℝ)) * Real.sin (Real.pi / ((2 * s : ℕ) : ℝ)) =
        Real.cos (Real.pi / (s : ℝ))
      rw [← h2, Real.cos_two_mul']
      ring
    · show Real.cos (Real.pi / ((2 * s : ℕ) : ℝ)) * Real.sin (Real.pi / ((2 * s : ℕ) : ℝ)) +
        Real.sin (Real.pi / ((2 * s : ℕ) : ℝ)) * Real.cos (Real.pi / ((2 * s : ℕ) : ℝ)) =
        Real.sin (Real.pi / (s : ℝ))
      rw [← h2, Real.sin_two_mul]
      ring
  · apply Cx.ext
    · show Real.cos (Real.pi / ((1 : ℕ) : ℝ)) = -1
      norm_num [Real.cos_pi]
    · show Real.sin (Real.pi / ((1 : ℕ) : ℝ)) = -0
      norm_num [Real.sin_pi]

/-- The inverse-sign trigonometric family also satisfies the root
identities. -/
lemma trigRoot_inverse :
    IsRootFamily
      (stageW (fun s : ℕ => (Real.cos (Real.pi / s), Real.sin (Real.pi / s))) true) := by
  constructor
  · intro s hs
    have h2 : 2 * (Real.pi / ((2 * s : ℕ) : ℝ)) = Real.pi / (s : ℝ) := by
      have hs0 : ((s : ℕ) : ℝ) ≠ 0 := Nat.cast_ne_zero.mpr (by omega)
      push_cast
      field_simp
      ring
    apply Cx.ext
    · show Real.cos (Real.pi / ((2 * s : ℕ) : ℝ)) * Real.cos (Real.pi / ((2 * s : ℕ) : ℝ)) -
        -Real.sin (Real.pi / ((2 * s : ℕ) : ℝ)) * -Real.sin (Real.pi / ((2 * s : ℕ) : ℝ)) =
        Real.cos (Real.pi / (s : ℝ))
      rw [← h2, Real.cos_two_mul']
      ring
    · show Real.cos (Real.pi / ((2 * s : ℕ) : ℝ)) * -Real.sin (Real.pi / ((2 * s : ℕ) : ℝ)) +
        -Real.sin (Real.pi / ((2 * s : ℕ) : ℝ)) * Real.cos (Real.pi / ((2 * s : ℕ) : ℝ)) =
        -Real.sin (Real.pi / (s : ℝ))
      rw [← h2, Real.sin_two_mul]
      ring
  · apply Cx.ext
    · show Real.cos (Real.pi / ((1 : ℕ) : ℝ)) = -1
      norm_num [Real.cos_pi]
    · show -Real.sin (Real.pi / ((1 : ℕ) : ℝ)) = -0
      norm_num [Real.sin_pi]

/-- The two signs multiply to `1`: `|exp(i*pi/s)|^2 = 1`. -/
lemma trigRoot_inv_mul (s : ℕ) :
    stageW (fun u : ℕ => (Real.cos (Real.pi / u), Real.sin (Real.pi / u))) false s *
      stageW (fun u : ℕ => (Real.cos (Real.pi / u), Real.sin (Real.pi / u))) true s = 1 := by
  apply Cx.ext
  · show Real.cos (Real.pi / (s : ℝ)) * Real.cos (Real.pi / (s : ℝ)) -
      Real.sin (Real.pi / (s : ℝ)) * -Real.sin (Real.pi / (s : ℝ)) = 1
    have h := Real.sin_sq_add_cos_sq (Real.pi / (s : ℝ))
    nlinarith [h]
  · show Real.cos (Real.pi / (s : ℝ)) * -Real.sin (Real.pi / (s : ℝ)) +
      Real.sin (Real.pi / (s : ℝ)) * Real.cos (Real.pi / (s : ℝ)) = 0
    ring

/-- C8: FFT round-trip.  For every power-of-two length `2^m` (so in
particular 8, 64 and 1024), running `fft_radix2` forward on a real
signal (zero imaginary buffer) and then `ifft_radix2` (the same stage
loop with negated rotation sign, each element divided by `N` at the
end) reproduces the original signal within `1e-10` per element — in the
exact-arithmetic model the round-trip is exact, so every per-element
error is `0 ≤ 1e-10`, on the real part and the imaginary part alike. -/
theorem claim8_fft_roundtrip (w : ℕ → ℝ × ℝ)
    (hw : ∀ s : ℕ, w s = (Real.cos (Real.pi / s), Real.sin (Real.pi / s)))
    (m : ℕ) (x : List ℝ) (hx : x.length = 2 ^ m) :
    ∀ i < x.length,
      |(ifft_radix2 w (fft_radix2 w x (List.replicate x.length 0) false).1
          (fft_radix2 w x (List.replicate x.length 0) false).2).1.getD i 0 - x.getD i 0| ≤
        1 / 10 ^ 10 ∧
      |(ifft_radix2 w (fft_radix2 w x (List.replicate x.length 0) false).1
          (fft_radix2 w x (List.replicate x.length 0) false).2).2.getD i 0| ≤
        1 / 10 ^ 10 := by
  have hwe : w = fun s : ℕ => (Real.cos (Real.pi / s), Real.sin (Real.pi / s)) := funext hw
  subst hwe
  intro i hi
  have h := fft_roundtrip_list _ trigRoot_forward trigRoot_inverse trigRoot_inv_mul m
    (Nat.cast_ne_zero.mpr (pow_ne_zero m two_ne_zero)) x hx i hi
  rw [h.1, h.2]
  constructor
  · rw [sub_self, abs_zero]
    positivity
  · rw [abs_zero]
    positivity

theorem claim8_witness :
    |(ifft_radix2 (fun s : ℕ => (Real.cos (Real.pi / s), Real.sin (Real.pi / s)))
        (fft_radix2 (fun s : ℕ => (Real.cos (Real.pi / s), Real.sin (Real.pi / s)))
          (List.replicate 8 (1 : ℝ))
          (List.replicate (List.replicate 8 (1 : ℝ)).length 0) false).1
        (fft_radix2 (fun s : ℕ => (Real.cos (Real.pi / s), Real.sin (Real.pi / s)))
          (List.replicate 8 (1 : ℝ))
          (List.replicate (List.replicate 8 (1 : ℝ)).length 0) false).2).1.getD 0 0 -
      (List.replicate 8 (1 : ℝ)).getD 0 0| ≤ 1 / 10 ^ 10 ∧
    |(ifft_radix2 (fun s : ℕ => (Real.cos (Real.pi / s), Real.sin (Real.pi / s)))
        (fft_radix2 (fun s : ℕ => (Real.cos (Real.pi / s), Real.sin (Real.pi / s)))
          (List.replicate 8 (1 : ℝ))
          (List.replicate (List.replicate 8 (1 : ℝ)).length 0) false).1
        (fft_radix2 (fun s : ℕ => (Real.cos (Real.pi / s), Real.sin (Real.pi / s)))
          (List.replicate 8 (1 : ℝ))
          (List.replicate (List.replicate 8 (1 : ℝ)).length 0) false).2).2.getD 0 0| ≤
      1 / 10 ^ 10 :=
  claim8_fft_roundtrip _ (fun _ => rfl) 3 (List.replicate 8 1) (by norm_num) 0 (by norm_num)

end SciMath
